import Mathlib

/-!
Verification of the namespaced binding environment (WDL/Env2.py), the WDL
expression AST with its two-pass type-inference / evaluation pipeline
(WDL/Expr.py) and the input-digest computation of the call cache
(WDL/runtime/cache.py).

Python strings are modelled as lists of characters (PyStr); Python dicts as
association lists in insertion order; Python sets as lists with
membership-checked insertion.  Exceptions (Collision, KeyError,
AssertionError) are modelled with an Except monad.  Methods that mutate the
receiver in place (Base.__setitem__, Base.add_namespace) are embedded in
state-passing style: they return the receiver's updated state.
-/

/-- Python strings modelled as their sequence of characters. -/
abbrev PyStr := List Char

/-- Index of the last occurrence of the dot separator, as in Python
str.rindex, returning none when the string has no dot (Python raises
ValueError there, which the callers catch). -/
def rindexDot : PyStr → Option Nat
  | [] => none
  | c :: cs =>
    match rindexDot cs with
    | some i => some (i + 1)
    | none => if c = '.' then some 0 else none

/-- Fueled computation of the proper dotted ancestor chain of a key:
stripping at the last dot repeatedly, as Base.__setitem__ / add_namespace do.
The fuel only serves termination; rindexDot strictly shrinks the string, so
fuel at least the string length is always enough. -/
def ancA : Nat → PyStr → List PyStr
  | 0, _ => []
  | fuel + 1, k =>
    match rindexDot k with
    | some p => k.take p :: ancA fuel (k.take p)
    | none => []

/-- The proper dotted ancestor chain of a key: for a key a.b.c this is
[a.b, a]. -/
def ancestors (k : PyStr) : List PyStr := ancA k.length k

/-- Whether the string contains two consecutive dots. -/
def hasDD : PyStr → Bool
  | '.' :: '.' :: _ => true
  | _ :: rest => hasDD rest
  | [] => false

/-- A well-formed dotted key: nonempty, no leading or trailing separator and
no empty component (the shape of every key the Python asserts accept at
every recursion level). -/
def WFkey (k : PyStr) : Prop :=
  k ≠ [] ∧ k.head? ≠ some '.' ∧ k.getLast? ≠ some '.' ∧ hasDD k = false

instance (k : PyStr) : Decidable (WFkey k) := by
  unfold WFkey; infer_instance

/-- Errors raised by the environment operations: Collision (duplicate or
clashing name), Python KeyError (the NotFound of the spec) and a failed
assert statement. -/
inductive Err where
  | collision (key : PyStr)
  | keyError (key : PyStr)
  | assertionError
deriving DecidableEq, Repr

/-- Decidable equality of Except results, for evaluating concrete runs. -/
instance {e a : Type} [DecidableEq e] [DecidableEq a] : DecidableEq (Except e a) :=
  fun x y =>
    match x, y with
    | .ok v, .ok w =>
      match decEq v w with
      | isTrue h => isTrue (by rw [h])
      | isFalse h => isFalse (by simp [h])
    | .error v, .error w =>
      match decEq v w with
      | isTrue h => isTrue (by rw [h])
      | isFalse h => isFalse (by simp [h])
    | .ok _, .error _ => isFalse (by simp)
    | .error _, .ok _ => isFalse (by simp)

/-- WDL.Env2.Base: bindings as an insertion-ordered association list (the
Python dict) together with the declared namespace set (the Python set,
modelled as a list with membership-checked insertion). -/
structure Base (T : Type) where
  items : List (PyStr × T)
  namespaces : List PyStr
deriving DecidableEq, Repr

/-- Lookup of a bound key (Python dict access self._items[key]). -/
def lookupKey {T : Type} (items : List (PyStr × T)) (k : PyStr) : Option T :=
  match items with
  | [] => none
  | kv :: rest => if kv.1 = k then some kv.2 else lookupKey rest k

/-- Python key in self._items. -/
def hasKey {T : Type} (e : Base T) (k : PyStr) : Bool :=
  (lookupKey e.items k).isSome

/-- Stripping one trailing separator, as add_namespace and
contains_namespace both do on entry. -/
def stripDot (s : PyStr) : PyStr :=
  if s.getLast? = some '.' then s.dropLast else s

/-- Appending the separator unless already present, as enter_namespace does
before prefix matching. -/
def ensureDot (s : PyStr) : PyStr :=
  if s.getLast? = some '.' then s else s ++ ['.']

/-- Python set.add: append unless already present. -/
def nsAdd (l : List PyStr) (x : PyStr) : List PyStr :=
  if x ∈ l then l else l ++ [x]

/-- Python set.union: membership-checked concatenation. -/
def nsUnion (a b : List PyStr) : List PyStr :=
  a ++ b.filter (fun x => ¬ x ∈ a)

/-- Fueled embedding of Base.add_namespace (which mutates the receiver in
place in Python; here it returns the receiver's updated state).  It strips
one trailing separator, asserts nonemptiness, fails with Collision if the
name is already a bound key (or an existing namespace when exist_ok is
false), recurses on the parent prefix with exist_ok, then records the
namespace. -/
def addNamespaceA {T : Type} : Nat → Base T → PyStr → Bool → Except Err (Base T)
  | 0, _, _, _ => .error .assertionError
  | fuel + 1, e, ns0, exist_ok =>
    if stripDot ns0 = [] then .error .assertionError
    else if hasKey e (stripDot ns0) then .error (.collision (stripDot ns0))
    else if !exist_ok ∧ stripDot ns0 ∈ e.namespaces then
      .error (.collision (stripDot ns0))
    else
      match rindexDot (stripDot ns0) with
      | some pos =>
        if 0 < pos ∧ pos < (stripDot ns0).length - 1 then
          match addNamespaceA fuel e ((stripDot ns0).take pos) true with
          | .ok e' => .ok { e' with namespaces := nsAdd e'.namespaces (stripDot ns0) }
          | .error err => .error err
        else .error .assertionError
      | none => .ok { e with namespaces := nsAdd e.namespaces (stripDot ns0) }

/-- Base.add_namespace with enough fuel for its recursion depth. -/
def Base.add_namespace {T : Type} (e : Base T) (ns : PyStr) (exist_ok : Bool) :
    Except Err (Base T) :=
  addNamespaceA (ns.length + 1) e ns exist_ok

/-- Embedding of Base.__setitem__ (in-place in Python; returns the
receiver's updated state).  Asserts no trailing separator, fails with
Collision when the key is already bound or is an existing namespace,
implicitly declares the ancestor namespaces of a dotted key, then appends
the binding. -/
def Base.set {T : Type} (e : Base T) (key : PyStr) (value : T) :
    Except Err (Base T) :=
  if key.getLast? = some '.' then .error .assertionError
  else if hasKey e key ∨ key ∈ e.namespaces then .error (.collision key)
  else
    match rindexDot key with
    | some pos =>
      if 0 < pos ∧ pos < key.length - 1 then
        match Base.add_namespace e (key.take pos) true with
        | .ok e' => .ok { e' with items := e'.items ++ [(key, value)] }
        | .error err => .error err
      else .error .assertionError
    | none => .ok { e with items := e.items ++ [(key, value)] }

/-- Inserting a sequence of bindings one by one with Base.__setitem__, as
the loops of __init__, merge, map and filter do. -/
def setAll {T : Type} (e : Base T) : List (PyStr × T) → Except Err (Base T)
  | [] => .ok e
  | kv :: rest =>
    match Base.set e kv.1 kv.2 with
    | .ok e' => setAll e' rest
    | .error err => .error err

/-- Base.__init__ with an initial bindings dict: inserts every binding into
an empty environment. -/
def initBase {T : Type} (bindings : List (PyStr × T)) : Except Err (Base T) :=
  setAll ⟨[], []⟩ bindings

/-- Base.bind: copy the environment (constructor on self._items, then copy
the namespace set verbatim) and add one binding to the copy. -/
def Base.bind {T : Type} (e : Base T) (key : PyStr) (value : T) :
    Except Err (Base T) := do
  let a ← initBase e.items
  Base.set { a with namespaces := e.namespaces } key value

/-- Base.contains_namespace: strips one trailing separator and tests
namespace membership. -/
def Base.contains_namespace {T : Type} (e : Base T) (ns : PyStr) : Bool :=
  stripDot ns ∈ e.namespaces

/-- Base.enter_namespace: KeyError when the namespace is not declared;
otherwise re-insert every binding whose key has the namespace (plus
separator) as a prefix, with the prefix stripped, then re-root every
declared sub-namespace the same way. -/
def Base.enter_namespace {T : Type} (e : Base T) (ns : PyStr) :
    Except Err (Base T) :=
  if ¬ Base.contains_namespace e ns then .error (.keyError ns)
  else
    match setAll ⟨[], []⟩
        ((e.items.filter (fun kv => (ensureDot ns).isPrefixOf kv.1)).map
          (fun kv => (kv.1.drop (ensureDot ns).length, kv.2))) with
    | .ok a =>
      .ok { a with
            namespaces :=
              e.namespaces.foldl
                (fun acc n =>
                  if (ensureDot ns).isPrefixOf n then
                    nsAdd acc (n.drop (ensureDot ns).length)
                  else acc)
                a.namespaces }
    | .error err => .error err

/-- Base.map: rebuild from scratch with transformed values, then copy the
namespace set verbatim. -/
def Base.map {T S : Type} (e : Base T) (fn : PyStr → T → S) :
    Except Err (Base S) :=
  match setAll ⟨[], []⟩ (e.items.map (fun kv => (kv.1, fn kv.1 kv.2))) with
  | .ok a => .ok { a with namespaces := e.namespaces }
  | .error err => .error err

/-- Base.filter: rebuild from the bindings satisfying the predicate; copy
the namespace set verbatim only when keep_empty_namespaces. -/
def Base.filter {T : Type} (e : Base T) (pred : PyStr → T → Bool)
    (keep_empty_namespaces : Bool) : Except Err (Base T) :=
  match setAll ⟨[], []⟩ (e.items.filter (fun kv => pred kv.1 kv.2)) with
  | .ok a =>
    if keep_empty_namespaces then .ok { a with namespaces := e.namespaces }
    else .ok a
  | .error err => .error err

/-- The insertion half of Base.merge: both bindings lists into a fresh
environment, then the namespace set overwritten with the union. -/
def mergeCore {T : Type} (e rhs : Base T) : Except Err (Base T) :=
  match setAll ⟨[], []⟩ e.items with
  | .error err => .error err
  | .ok a =>
    match setAll a rhs.items with
    | .error err => .error err
    | .ok a =>
      .ok { a with namespaces := nsUnion e.namespaces rhs.namespaces }

/-- Base.merge: with disjoint_namespaces, first fail with Collision on any
common namespace (Python raises on an arbitrary element of the set
intersection; the embedding picks the first in list order); then insert the
bindings of both sides into a fresh environment and overwrite its namespace
set with the union of the two namespace sets. -/
def Base.merge {T : Type} (e rhs : Base T) (disjoint_namespaces : Bool) :
    Except Err (Base T) :=
  match
    (if disjoint_namespaces then e.namespaces.filter (fun x => x ∈ rhs.namespaces)
     else []) with
  | c :: _ => .error (.collision c)
  | [] => mergeCore e rhs

/-- Keys of a bindings list, in insertion order (Python dict iteration). -/
def keysOf {T : Type} (l : List (PyStr × T)) : List PyStr :=
  l.map (fun kv => kv.1)

/-- A name together with its proper dotted ancestors. -/
def ancChain (k : PyStr) : List PyStr := k :: ancestors k

/-- All proper dotted ancestors of all the given keys. -/
def ancAll (ks : List PyStr) : List PyStr := (ks.map ancestors).flatten

/-- A bindings list that a sequence of successful Base.__setitem__ calls can
produce: distinct well-formed keys, none a dotted ancestor of another. -/
def goodList {T : Type} (l : List (PyStr × T)) : Prop :=
  (keysOf l).Nodup ∧ (∀ k ∈ keysOf l, WFkey k) ∧
    (∀ k₁ ∈ keysOf l, ∀ k₂ ∈ keysOf l, k₁ ∉ ancestors k₂)

instance {T : Type} (l : List (PyStr × T)) : Decidable (goodList l) := by
  unfold goodList; infer_instance

/-- Invariant of every environment reachable through the public interface:
keys are distinct and well-formed, no key is also a namespace, and every
dotted ancestor of a key is a declared namespace. -/
def Valid {T : Type} (e : Base T) : Prop :=
  (keysOf e.items).Nodup ∧ (∀ k ∈ keysOf e.items, WFkey k) ∧
    (∀ k ∈ keysOf e.items, k ∉ e.namespaces) ∧
    (∀ k ∈ keysOf e.items, ∀ a ∈ ancestors k, a ∈ e.namespaces)

instance {T : Type} (e : Base T) : Decidable (Valid e) := by
  unfold Valid; infer_instance

/-! The WDL expression AST (WDL/Expr.py).  The repository snapshot has an
empty standard-library dispatch table (the module filling it is absent), so
no FunctionApplication node can be constructed without NoSuchFunction; the
embedding therefore covers the remaining node variants.  The Type, Value and
Error classes the AST references (WDL/Type.py, WDL/Value.py, WDL/Error.py)
are not part of the source tree and are modelled from the spec where they
appear. -/

/-- Modelled from the spec: the Type capability (WDL/Type.py is absent): a
closed, structurally-comparable family Boolean, Int, Float, String and
Array with optional item type. -/
inductive WTy where
  | boolean
  | int
  | float
  | string
  | array (item : Option WTy)

/-- Structural equality of types, as the spec requires for typecheck. -/
def WTy.deq : (a b : WTy) → Decidable (a = b)
  | .boolean, .boolean => isTrue rfl
  | .int, .int => isTrue rfl
  | .float, .float => isTrue rfl
  | .string, .string => isTrue rfl
  | .array none, .array none => isTrue rfl
  | .array (some x), .array (some y) =>
    match WTy.deq x y with
    | isTrue h => isTrue (by rw [h])
    | isFalse h => isFalse (by simp [h])
  | .array none, .array (some _) => isFalse (by simp)
  | .array (some _), .array none => isFalse (by simp)
  | .boolean, .int => isFalse (by simp)
  | .boolean, .float => isFalse (by simp)
  | .boolean, .string => isFalse (by simp)
  | .boolean, .array _ => isFalse (by simp)
  | .int, .boolean => isFalse (by simp)
  | .int, .float => isFalse (by simp)
  | .int, .string => isFalse (by simp)
  | .int, .array _ => isFalse (by simp)
  | .float, .boolean => isFalse (by simp)
  | .float, .int => isFalse (by simp)
  | .float, .string => isFalse (by simp)
  | .float, .array _ => isFalse (by simp)
  | .string, .boolean => isFalse (by simp)
  | .string, .int => isFalse (by simp)
  | .string, .float => isFalse (by simp)
  | .string, .array _ => isFalse (by simp)
  | .array _, .boolean => isFalse (by simp)
  | .array _, .int => isFalse (by simp)
  | .array _, .float => isFalse (by simp)
  | .array _, .string => isFalse (by simp)

instance : DecidableEq WTy := WTy.deq

/-- Modelled from the spec: the Value capability (WDL/Value.py is absent): a
closed tagged family mirroring the type family; an array value carries its
array type, as V.Array(type, items) does at the construction site in
Expr.py.  Numeric payloads are exact rationals: no rounding arithmetic
occurs anywhere in the embedded fragment. -/
inductive WVal where
  | boolean (b : Bool)
  | int (n : Int)
  | float (q : Rat)
  | string (s : PyStr)
  | array (ty : WTy) (items : List WVal)

mutual
/-- The expression AST node variants of WDL/Expr.py (Boolean, Int, Float,
String, Placeholder, Array, IfThenElse, Ident).  An Ident node holds its
single identifier: the constructor asserts the namespace part empty. -/
inductive Expr where
  | boolean (b : Bool)
  | int (n : Int)
  | float (q : Rat)
  | string (parts : StrParts)
  | placeholder (options : List (PyStr × PyStr)) (e : Expr)
  | array (items : ExprList)
  | ifThenElse (c t f : Expr)
  | ident (name : PyStr)
/-- A list of sub-expressions (the items of an Array node). -/
inductive ExprList where
  | nil
  | cons (head : Expr) (tail : ExprList)
/-- The parts list of a String node: literal text segments interleaved with
Placeholder sub-expressions. -/
inductive StrParts where
  | nil
  | consLit (s : PyStr) (tail : StrParts)
  | consPh (e : Expr) (tail : StrParts)
end

/-- Errors of the inference pass: StaticTypeMismatch carrying the node, the
expected type, the actual type and an optional message; UnknownIdentifier
carrying the node. -/
inductive TErr where
  | staticTypeMismatch (node : Expr) (expected : WTy) (actual : WTy)
      (message : Option PyStr)
  | unknownIdentifier (node : Expr)

/-- Errors of the evaluation pass.  UnknownIdentifier carries the identifier
name; keyErr embeds a Python KeyError on the options dict; coercionError and
expectError embed failures of the modelled Value.coerce / Value.expect;
typeError embeds the TypeError str.join raises on a non-string part;
assertError embeds a failed assert (evaluating an Array node whose memoized
type is not an array type, i.e. whose inference did not succeed). -/
inductive RErr where
  | unknownIdentifier (name : PyStr)
  | keyErr (key : PyStr)
  | coercionError
  | expectError
  | typeError
  | assertError
deriving DecidableEq, Repr

/-- The TypeEnv of WDL/Expr.py: an immutable chain of frames, each holding
an optional binding; a missing parent is the empty chain. -/
abbrev TypeEnv := List (Option (PyStr × WTy))

/-- The Env of WDL/Expr.py (value bindings), same chain shape. -/
abbrev EEnv := List (Option (PyStr × WVal))

/-- TypeEnv.__getitem__: the innermost frame wins; KeyError (none) at the
root. -/
def tenvGet : TypeEnv → PyStr → Option WTy
  | [], _ => none
  | some b :: parent, id => if id = b.1 then some b.2 else tenvGet parent id
  | none :: parent, id => tenvGet parent id

/-- Env.__getitem__, same walk over value frames. -/
def eenvGet : EEnv → PyStr → Option WVal
  | [], _ => none
  | some b :: parent, id => if id = b.1 then some b.2 else eenvGet parent id
  | none :: parent, id => eenvGet parent id

/-- Base.typecheck of WDL/Expr.py: mismatch unless the memoized type equals
the expected type. -/
def typecheckBase (e : Expr) (ty : WTy) (expected : WTy) : Except TErr Unit :=
  if ty = expected then .ok ()
  else .error (.staticTypeMismatch e expected ty none)

/-- The dispatched typecheck: Int literals also accept an expected Float;
an empty Array literal accepts any expected array type; every other node
falls back to Base.typecheck on its memoized type ty. -/
def typecheck (e : Expr) (ty : WTy) (expected : WTy) : Except TErr Unit :=
  match e with
  | .int _ => if expected = .float then .ok () else typecheckBase e ty expected
  | .array .nil =>
    match expected with
    | .array _ => .ok ()
    | _ => typecheckBase e ty expected
  | _ => typecheckBase e ty expected

/-- Pairs each item expression with its already-inferred type. -/
def zipET : ExprList → List WTy → List (Expr × WTy)
  | .cons e rest, t :: ts => (e, t) :: zipET rest ts
  | _, _ => []

/-- The re-check loop of Array._infer_type: the type of the first item that
fails typecheck against the chosen item type, if any. -/
def firstBad : List (Expr × WTy) → WTy → Option WTy
  | [], _ => none
  | (e, t) :: rest, target =>
    match typecheck e t target with
    | .ok _ => firstBad rest target
    | .error _ => some t

/-- Whether a placeholder option is present (Python: name in self.options). -/
def hasOpt (opts : List (PyStr × PyStr)) (name : PyStr) : Bool :=
  (lookupKey opts name).isSome

mutual
/-- The _infer_type pass of WDL/Expr.py, node by node.  The pure embedding
recomputes sub-expression types where the Python reads the memoized .type
slot; _infer_type is deterministic, so the values agree. -/
def inferType (tenv : TypeEnv) : Expr → Except TErr WTy
  | .boolean _ => .ok .boolean
  | .int _ => .ok .int
  | .float _ => .ok .float
  | .string parts =>
    match inferParts tenv parts with
    | .ok _ => .ok .string
    | .error err => .error err
  | .placeholder opts e =>
    match inferType tenv e with
    | .error err => .error err
    | .ok t =>
      let arrayCheck : Except TErr Unit :=
        match t with
        | .array it =>
          if ¬ hasOpt opts ("sep".toList) then
            .error (.staticTypeMismatch (.placeholder opts e) (.array none) t
              (some (("array command placeholder must have \x27sep\x27").toList)))
          else if ¬ (it = some WTy.int ∨ it = some WTy.float ∨
              it = some WTy.boolean ∨ it = some WTy.string) then
            .error (.staticTypeMismatch (.placeholder opts e) (.array none) t
              (some (("cannot use array of complex types for command placeholder").toList)))
          else .ok ()
        | _ =>
          if hasOpt opts ("sep".toList) then
            .error (.staticTypeMismatch (.placeholder opts e) (.array none) t
              (some (("command placeholder has \x27sep\x27 option for non-Array expression").toList)))
          else .ok ()
      match arrayCheck with
      | .error err => .error err
      | .ok _ =>
        if hasOpt opts ("true".toList) ∨ hasOpt opts ("false".toList) then
          if t ≠ .boolean then
            .error (.staticTypeMismatch (.placeholder opts e) .boolean t
              (some (("command placeholder \x27true\x27 and \x27false\x27 options used with non-Boolean expression").toList)))
          else if ¬ (hasOpt opts ("true".toList) ∧ hasOpt opts ("false".toList)) then
            .error (.staticTypeMismatch (.placeholder opts e) .boolean t
              (some (("command placeholder with only one of \x27true\x27 and \x27false\x27 options").toList)))
          else .ok .string
        else .ok .string
  | .array items =>
    match items with
    | .nil => .ok (.array none)
    | .cons e0 rest =>
      match inferList tenv (.cons e0 rest) with
      | .error err => .error err
      | .ok ts =>
        -- ts has the length of the item list, hence is nonempty; the headD
        -- default is unreachable
        let t0 := ts.headD .boolean
        let item_type := if t0 = .int ∧ .float ∈ ts then .float else t0
        match firstBad (zipET (.cons e0 rest) ts) item_type with
        | some bad =>
          .error (.staticTypeMismatch (.array (.cons e0 rest)) item_type bad
            (some (("inconsistent types within array").toList)))
        | none => .ok (.array (some item_type))
  | .ifThenElse c t f =>
    match inferType tenv c with
    | .error err => .error err
    | .ok tc =>
      if tc ≠ .boolean then
        .error (.staticTypeMismatch (.ifThenElse c t f) .boolean tc
          (some (("in if condition").toList)))
      else
        match inferType tenv t with
        | .error err => .error err
        | .ok tt =>
          match inferType tenv f with
          | .error err => .error err
          | .ok tf =>
            let selfTy := if tt = .int ∧ tf = .float then .float else tt
            match typecheck f tf selfTy with
            | .ok _ => .ok selfTy
            | .error _ =>
              .error (.staticTypeMismatch (.ifThenElse c t f) tt tf
                (some (("if consequent & alternative must have the same type").toList)))
  | .ident name =>
    match tenvGet tenv name with
    | some t => .ok t
    | none => .error (.unknownIdentifier (.ident name))
/-- The inference loop over the items of an Array node, in order. -/
def inferList (tenv : TypeEnv) : ExprList → Except TErr (List WTy)
  | .nil => .ok []
  | .cons e rest =>
    match inferType tenv e with
    | .error err => .error err
    | .ok t =>
      match inferList tenv rest with
      | .ok ts => .ok (t :: ts)
      | .error err => .error err
/-- String._infer_type: infer every Placeholder part, skip literal text. -/
def inferParts (tenv : TypeEnv) : StrParts → Except TErr Unit
  | .nil => .ok ()
  | .consLit _ rest => inferParts tenv rest
  | .consPh e rest =>
    match inferType tenv e with
    | .error err => .error err
    | .ok _ => inferParts tenv rest
end

/-- The type tag of a runtime value (an array value reports the array type
it carries). -/
def typeOf : WVal → WTy
  | .boolean _ => .boolean
  | .int _ => .int
  | .float _ => .float
  | .string _ => .string
  | .array ty _ => ty

/-- Modelled from the spec: Value.coerce (WDL/Value.py is absent): identity
when the type already matches, Int-to-Float numeric widening, a type error
otherwise; an absent target item type passes the value through. -/
def coerce (v : WVal) : Option WTy → Except RErr WVal
  | none => .ok v
  | some t =>
    if typeOf v = t then .ok v
    else
      match v, t with
      | .int n, .float => .ok (.float (n : Rat))
      | _, _ => .error .coercionError

/-- Modelled from the spec: Value.expect (WDL/Value.py is absent): the value
itself when its type matches, an error otherwise (the spec documents no
implicit coercion other than the numeric widening, which has no Boolean
case). -/
def expect (v : WVal) (t : WTy) : Except RErr WVal :=
  if typeOf v = t then .ok v else .error .expectError

/-- The .value payload of a Boolean value, read after expect Boolean has
succeeded (the default branch is unreachable then). -/
def boolVal : WVal → Bool
  | .boolean b => b
  | _ => false

/-- Modelled from the spec: the escape-sequence decoding of literal string
parts (Python str.encode / decode unicode_escape, an external builtin):
common single-character escapes are decoded, an unrecognized escape is kept
verbatim. -/
def decodeEscapes : PyStr → PyStr
  | '\\' :: c :: rest =>
    (if c = 'n' then ['\n']
     else if c = 't' then ['\t']
     else if c = 'r' then ['\r']
     else if c = '\\' then ['\\']
     else if c = '\x27' then ['\x27']
     else if c = '"' then ['"']
     else ['\\', c]) ++ decodeEscapes rest
  | c :: rest => c :: decodeEscapes rest
  | [] => []

/-- Python s[1:-1]: drop the first and the last character; total, returning
the empty string on inputs shorter than two characters. -/
def pyTrim (s : PyStr) : PyStr := (s.drop 1).dropLast

/-- The payloads collected by String.eval, if all of them are strings (the
join raises TypeError otherwise). -/
def allStrings : List WVal → Option (List PyStr)
  | [] => some []
  | .string s :: rest =>
    match allStrings rest with
    | some ss => some (s :: ss)
    | none => none
  | _ :: _ => none

/-- Modelled from the spec: the generic stringification str(x) of a raw
payload (the Value classes are absent from the source tree). -/
def pyStrOfPayload : WVal → PyStr
  | .boolean b => if b then ("True").toList else ("False").toList
  | .int n => (toString n).toList
  | .float q => (toString q).toList
  | .string s => s
  | .array _ l =>
    '[' :: (List.intercalate ((", ").toList)
      (l.attach.map (fun x => pyStrOfPayload x.1))) ++ [']']
decreasing_by
  simp_wf
  have := List.sizeOf_lt_of_mem x.2
  omega

/-- Modelled from the spec: the generic stringification str(v) of a value
object, the fallback of Placeholder.eval. -/
def pyStrOfValue (v : WVal) : PyStr := pyStrOfPayload v

mutual
/-- The eval pass of WDL/Expr.py, node by node, in an environment of value
frames.  Where the Python reads the memoized .type slot (Array.eval), the
embedding recomputes it with inferType, which is deterministic. -/
def evalExpr (tenv : TypeEnv) (env : EEnv) : Expr → Except RErr WVal
  | .boolean b => .ok (.boolean b)
  | .int n => .ok (.int n)
  | .float q => .ok (.float q)
  | .string parts =>
    match evalParts tenv env parts with
    | .error err => .error err
    | .ok vs =>
      match allStrings vs with
      | some ss => .ok (.string (pyTrim ss.flatten))
      | none => .error .typeError
  | .placeholder opts e =>
    match evalExpr tenv env e with
    | .error err => .error err
    | .ok v =>
      match v with
      | .string s => .ok (.string s)
      | .array _ items =>
        match lookupKey opts (("sep").toList) with
        | some sep =>
          .ok (.string (List.intercalate sep (items.map pyStrOfPayload)))
        | none => .error (.keyErr (("sep").toList))
      | .boolean b =>
        if b ∧ hasOpt opts (("true").toList) then
          .ok (.string ((lookupKey opts (("true").toList)).getD []))
        else if ¬ b ∧ hasOpt opts (("false").toList) then
          .ok (.string ((lookupKey opts (("false").toList)).getD []))
        else .ok (.string (pyStrOfValue (.boolean b)))
      | .int n => .ok (.string (pyStrOfValue (.int n)))
      | .float q => .ok (.string (pyStrOfValue (.float q)))
  | .array items =>
    match inferType tenv (.array items) with
    | .ok (.array it) =>
      match evalCoerceList tenv env items it with
      | .ok vs => .ok (.array (.array it) vs)
      | .error err => .error err
    | _ => .error .assertError
  | .ifThenElse c t f =>
    match evalExpr tenv env c with
    | .error err => .error err
    | .ok v =>
      match expect v .boolean with
      | .error err => .error err
      | .ok vb =>
        if boolVal vb ≠ false then evalExpr tenv env t
        else evalExpr tenv env f
  | .ident name =>
    match eenvGet env name with
    | some v => .ok v
    | none => .error (.unknownIdentifier name)
/-- Array.eval's comprehension: evaluate each item and coerce it to the
inferred item type, in order. -/
def evalCoerceList (tenv : TypeEnv) (env : EEnv) :
    ExprList → Option WTy → Except RErr (List WVal)
  | .nil, _ => .ok []
  | .cons e rest, it =>
    match evalExpr tenv env e with
    | .error err => .error err
    | .ok v =>
      match coerce v it with
      | .error err => .error err
      | .ok v' =>
        match evalCoerceList tenv env rest it with
        | .ok vs => .ok (v' :: vs)
        | .error err => .error err
/-- String.eval's loop: literal parts are escape-decoded, Placeholder parts
are evaluated and their payload taken. -/
def evalParts (tenv : TypeEnv) (env : EEnv) : StrParts → Except RErr (List WVal)
  | .nil => .ok []
  | .consLit s rest =>
    match evalParts tenv env rest with
    | .ok vs => .ok (.string (decodeEscapes s) :: vs)
    | .error err => .error err
  | .consPh e rest =>
    match evalExpr tenv env e with
    | .error err => .error err
    | .ok v =>
      match evalParts tenv env rest with
      | .ok vs => .ok (v :: vs)
      | .error err => .error err
end

/-! The input digest of the call cache (WDL/runtime/cache.py). -/

/-- A JSON value, the canonical projection target. -/
inductive JVal where
  | jbool (b : Bool)
  | jnum (q : Rat)
  | jstr (s : PyStr)
  | jarr (items : List JVal)

/-- Modelled from the spec: the canonical JSON projection of one value
(values_to_json renders each bound value to JSON; the function is not under
the source tree). -/
def jsonOfValue : WVal → JVal
  | .boolean b => .jbool b
  | .int n => .jnum (n : Rat)
  | .float q => .jnum q
  | .string s => .jstr s
  | .array _ l => .jarr (l.attach.map (fun x => jsonOfValue x.1))
decreasing_by
  simp_wf
  have := List.sizeOf_lt_of_mem x.2
  omega

/-- Modelled from the spec: values_to_json, the canonical JSON-like
projection of a Binding Environment of Values: a JSON object (dict in
binding order) mapping each bound name to the JSON rendering of its value. -/
def values_to_json (inputs : List (PyStr × WVal)) : List (PyStr × JVal) :=
  inputs.map (fun kv => (kv.1, jsonOfValue kv.2))

/-- Python string comparison: lexicographic by code point. -/
def lexLe : PyStr → PyStr → Bool
  | [], _ => true
  | _ :: _, [] => false
  | a :: as, b :: bs => if a = b then lexLe as bs else decide (a < b)

/-- Insertion step of a stable ascending sort. -/
def insertSorted (x : PyStr) : List PyStr → List PyStr
  | [] => [x]
  | y :: ys => if lexLe x y then x :: y :: ys else y :: insertSorted x ys

/-- Python sorted() of an iterable of strings: stable ascending sort. -/
def pySortStrs : List PyStr → List PyStr
  | [] => []
  | x :: xs => insertSorted x (pySortStrs xs)

/-- json.dumps of a list of strings with the default separator: the
bracketed, comma-and-space separated, double-quoted rendering (the key
names cached here need no escaping). -/
def jsonDumpsStrList (l : List PyStr) : PyStr :=
  '[' :: (List.intercalate ((", ").toList)
    (l.map (fun s => '"' :: s ++ ['"']))) ++ [']']

/-- The byte material get_digest_for_inputs hashes:
json.dumps(sorted(values_to_json(inputs))).  Python sorted() over the dict
returned by values_to_json iterates its keys, so the material is the sorted
list of bound names only. -/
def get_digest_material (inputs : List (PyStr × WVal)) : PyStr :=
  jsonDumpsStrList (pySortStrs (keysOf (values_to_json inputs)))

/-- get_digest_for_inputs: the SHA-256 hex digest of the material.  SHA-256
itself is an external primitive (hashlib), taken as a parameter. -/
def get_digest_for_inputs (sha256hex : PyStr → PyStr)
    (inputs : List (PyStr × WVal)) : PyStr :=
  sha256hex (get_digest_material inputs)

/-! Lemmas about the last-dot index. -/

theorem rindexDot_eq_none {k : PyStr} : rindexDot k = none ↔ '.' ∉ k := by
  induction k with
  | nil => simp [rindexDot]
  | cons c cs ih =>
    simp only [rindexDot]
    cases h : rindexDot cs with
    | some i =>
      have : '.' ∈ cs := by
        by_contra hmem
        rw [ih.mpr hmem] at h
        exact Option.noConfusion h
      simp [List.mem_cons, this]
    | none =>
      have hcs : '.' ∉ cs := ih.mp h
      by_cases hc : c = '.'
      · simp [hc, List.mem_cons]
      · simp only [hc, if_false, List.mem_cons]
        simp only [true_iff, not_or]
        exact ⟨fun h' => hc h'.symm, hcs⟩

theorem rindexDot_lt {k : PyStr} {p : Nat} (h : rindexDot k = some p) :
    p < k.length := by
  induction k generalizing p with
  | nil => exact absurd h (by simp [rindexDot])
  | cons c cs ih =>
    simp only [rindexDot] at h
    cases hcs : rindexDot cs with
    | some i =>
      rw [hcs] at h
      cases h
      have := ih hcs
      simp only [List.length_cons]
      omega
    | none =>
      rw [hcs] at h
      by_cases hc : c = '.'
      · simp only [hc, if_pos rfl] at h
        cases h
        simp only [List.length_cons]
        omega
      · simp [hc] at h

theorem rindexDot_ne_nil {k : PyStr} {p : Nat} (h : rindexDot k = some p) :
    k ≠ [] := by
  intro hk; subst hk; simp [rindexDot] at h

theorem rindexDot_append_some {a b : PyStr} {i : Nat} (h : rindexDot b = some i) :
    rindexDot (a ++ b) = some (a.length + i) := by
  induction a with
  | nil => simpa using h
  | cons c cs ih =>
    have hstep : rindexDot (c :: (cs ++ b)) =
        match rindexDot (cs ++ b) with
        | some j => some (j + 1)
        | none => if c = '.' then some 0 else none := rfl
    rw [List.cons_append, hstep, ih]
    show some (cs.length + i + 1) = some ((c :: cs).length + i)
    simp only [List.length_cons]
    congr 1
    omega

theorem rindexDot_snoc_comp {a r : PyStr} (h : '.' ∉ r) :
    rindexDot (a ++ '.' :: r) = some a.length := by
  have hr : rindexDot r = none := rindexDot_eq_none.mpr h
  have hdr : rindexDot ('.' :: r) = some 0 := by simp [rindexDot, hr]
  simpa using @rindexDot_append_some a ('.' :: r) 0 hdr

/-! Lemmas about the ancestor chain. -/

theorem ancA_nil (f : Nat) : ancA f ([] : PyStr) = [] := by
  cases f <;> simp [ancA, rindexDot]

theorem ancA_succ_some {f : Nat} {k : PyStr} {p : Nat} (h : rindexDot k = some p) :
    ancA (f + 1) k = k.take p :: ancA f (k.take p) := by
  simp [ancA, h]

theorem ancA_succ_none {f : Nat} {k : PyStr} (h : rindexDot k = none) :
    ancA (f + 1) k = [] := by
  simp [ancA, h]

theorem length_take_rindex {k : PyStr} {p : Nat} (h : rindexDot k = some p) :
    (k.take p).length = p := by
  have := rindexDot_lt h
  simp only [List.length_take]
  omega

theorem ancA_congr : ∀ (f : Nat) {g : Nat} {k : PyStr}, k.length ≤ f → k.length ≤ g →
    ancA f k = ancA g k := by
  intro f
  induction f with
  | zero =>
    intro g k hf _
    have : k = [] := by cases k with
      | nil => rfl
      | cons c cs => simp at hf
    subst this; rw [ancA_nil, ancA_nil]
  | succ f ih =>
    intro g k hf hg
    cases hk : k with
    | nil => rw [ancA_nil, ancA_nil]
    | cons c cs =>
      subst hk
      cases g with
      | zero => simp at hg
      | succ g =>
        cases h : rindexDot (c :: cs) with
        | none => rw [ancA_succ_none h, ancA_succ_none h]
        | some p =>
          have hp := rindexDot_lt h
          have hlen := length_take_rindex h
          rw [ancA_succ_some h, ancA_succ_some h]
          congr 1
          exact ih (by rw [hlen]; simp only [List.length_cons] at hf hp; omega)
            (by rw [hlen]; simp only [List.length_cons] at hg hp; omega)

theorem ancestors_eq_some {k : PyStr} {p : Nat} (h : rindexDot k = some p) :
    ancestors k = k.take p :: ancestors (k.take p) := by
  have hne := rindexDot_ne_nil h
  have hp := rindexDot_lt h
  have hlen := length_take_rindex h
  unfold ancestors
  cases hk : k.length with
  | zero => exact absurd (List.length_eq_zero.mp hk) hne
  | succ n =>
    rw [ancA_succ_some h]
    congr 1
    exact ancA_congr n (by omega) (by omega)

theorem ancestors_eq_none {k : PyStr} (h : rindexDot k = none) :
    ancestors k = [] := by
  unfold ancestors
  cases hk : k.length with
  | zero => rfl
  | succ n => exact ancA_succ_none h

theorem ancestors_snoc {a r : PyStr} (h : '.' ∉ r) :
    ancestors (a ++ '.' :: r) = a :: ancestors a := by
  rw [ancestors_eq_some (rindexDot_snoc_comp h), List.take_left]

theorem mem_ancestors_length {k a : PyStr} (ha : a ∈ ancestors k) :
    a.length < k.length := by
  have aux : ∀ (n : Nat) (k a : PyStr), k.length ≤ n → a ∈ ancestors k →
      a.length < k.length := by
    intro n
    induction n with
    | zero =>
      intro k a hk ha
      have : k = [] := by cases k with
        | nil => rfl
        | cons c cs => simp at hk
      subst this
      rw [ancestors_eq_none (by simp [rindexDot])] at ha
      simp at ha
    | succ n ih =>
      intro k a hk ha
      cases h : rindexDot k with
      | none => rw [ancestors_eq_none h] at ha; simp at ha
      | some p =>
        rw [ancestors_eq_some h] at ha
        have hp := rindexDot_lt h
        have hlen := length_take_rindex h
        rcases List.mem_cons.mp ha with rfl | ha
        · omega
        · have := ih (k.take p) a (by omega) ha
          omega
  exact aux k.length k a (le_refl _) ha

theorem ancestors_split (r u : PyStr) :
    ancestors (u ++ '.' :: r) =
      (ancestors r).map (fun a => u ++ '.' :: a) ++ u :: ancestors u := by
  have aux : ∀ (n : Nat) (r u : PyStr), r.length ≤ n →
      ancestors (u ++ '.' :: r) =
        (ancestors r).map (fun a => u ++ '.' :: a) ++ u :: ancestors u := by
    intro n
    induction n with
    | zero =>
      intro r u hr
      have : r = [] := by cases r with
        | nil => rfl
        | cons c cs => simp at hr
      subst this
      rw [show ancestors ([] : PyStr) = [] from ancestors_eq_none rfl]
      rw [ancestors_snoc (show '.' ∉ ([] : PyStr) by simp)]
      simp
    | succ n ih =>
      intro r u hr
      cases h : rindexDot r with
      | none =>
        rw [ancestors_eq_none h, ancestors_snoc (rindexDot_eq_none.mp h)]
        simp
      | some p =>
        have hp := rindexDot_lt h
        have hlen := length_take_rindex h
        have hcons : rindexDot ('.' :: r) = some (p + 1) := by
          simp [rindexDot, h]
        have happ : rindexDot (u ++ '.' :: r) = some (u.length + (p + 1)) :=
          rindexDot_append_some hcons
        rw [ancestors_eq_some happ]
        have htake : List.take (u.length + (p + 1)) (u ++ '.' :: r) =
            u ++ '.' :: List.take p r := by
          rw [List.take_append]; rfl
        rw [htake, ih (List.take p r) u (by omega), ancestors_eq_some h]
        simp
  exact aux r.length r u (le_refl _)

/-! Lemmas about double dots and well-formed keys. -/

theorem hasDD_cons_false {c : Char} {l : PyStr} :
    hasDD (c :: l) = false ↔ ((c = '.' → l.head? ≠ some '.') ∧ hasDD l = false) := by
  cases l with
  | nil => by_cases hc : c = '.' <;> simp [hasDD, hc]
  | cons d l' =>
    by_cases hc : c = '.' <;> by_cases hd : d = '.' <;>
      subst_vars <;> simp_all [hasDD]

theorem hasDD_tail {c : Char} {l : PyStr} (h : hasDD (c :: l) = false) :
    hasDD l = false := (hasDD_cons_false.mp h).2

theorem hasDD_append_right {a b : PyStr} (h : hasDD (a ++ b) = false) :
    hasDD b = false := by
  induction a with
  | nil => simpa using h
  | cons c cs ih => exact ih (hasDD_tail h)

theorem hasDD_append_left {a b : PyStr} (h : hasDD (a ++ b) = false) :
    hasDD a = false := by
  induction a with
  | nil => simp [hasDD]
  | cons c cs ih =>
    rw [List.cons_append] at h
    have h2 := hasDD_cons_false.mp h
    rw [hasDD_cons_false]
    refine ⟨fun hc => ?_, ih h2.2⟩
    intro hh
    apply h2.1 hc
    cases cs with
    | nil => simp at hh
    | cons e es => simpa using hh

theorem hasDD_mid {u s : PyStr} (h : hasDD (u ++ '.' :: s) = false) :
    s.head? ≠ some '.' := by
  induction u with
  | nil => exact (hasDD_cons_false.mp h).1 rfl
  | cons c cs ih => exact ih (hasDD_tail h)

theorem head?_take_pos {k : PyStr} {p : Nat} (hp : 0 < p) :
    (k.take p).head? = k.head? := by
  rw [List.head?_take]
  simp [Nat.pos_iff_ne_zero.mp hp]

theorem getLast?_cons_of_ne_nil {α : Type} {c : α} {l : List α} (h : l ≠ []) :
    (c :: l).getLast? = l.getLast? := by
  cases l with
  | nil => exact absurd rfl h
  | cons x xs => exact List.getLast?_cons_cons

/-- Structure of a well-formed key at its last dot: the position is interior,
and the parent prefix is itself a well-formed key. -/
theorem WFkey_split {k : PyStr} {p : Nat} (hw : WFkey k)
    (h : rindexDot k = some p) :
    0 < p ∧ p < k.length - 1 ∧ WFkey (k.take p) := by
  obtain ⟨hne, hhead, hlast, hdd⟩ := hw
  have core : ∀ (k : PyStr), k.getLast? ≠ some '.' → hasDD k = false →
      ∀ p, rindexDot k = some p →
      ((k.take p).getLast? ≠ some '.' ∧ hasDD (k.take p) = false ∧
        p + 1 < k.length ∧ (p = 0 → k.head? = some '.')) := by
    intro k
    induction k with
    | nil => intro _ _ p h; simp [rindexDot] at h
    | cons c cs ih =>
      intro hlast hdd p h
      simp only [rindexDot] at h
      cases hcs : rindexDot cs with
      | some i =>
        rw [hcs] at h
        cases h
        have hcsne : cs ≠ [] := rindexDot_ne_nil hcs
        have hlast' : cs.getLast? ≠ some '.' := by
          rwa [getLast?_cons_of_ne_nil hcsne] at hlast
        have hdd' := hasDD_tail hdd
        obtain ⟨A, B, C, D⟩ := ih hlast' hdd' i hcs
        have htake : List.take (i + 1) (c :: cs) = c :: List.take i cs := rfl
        refine ⟨?_, ?_, by simp only [List.length_cons]; omega, by omega⟩
        · rw [htake]
          by_cases hi : i = 0
          · subst hi
            have hhd : cs.head? = some '.' := D rfl
            simp only [List.take_zero, List.getLast?_singleton]
            intro hco
            simp only [Option.some.injEq] at hco
            exact (hasDD_cons_false.mp hdd).1 hco hhd
          · have htne : List.take i cs ≠ [] := by
              have : 0 < i := Nat.pos_of_ne_zero hi
              cases cs with
              | nil => exact absurd rfl hcsne
              | cons x xs =>
                cases i with
                | zero => omega
                | succ i' => simp
            rw [getLast?_cons_of_ne_nil htne]
            exact A
        · rw [htake, hasDD_cons_false]
          refine ⟨fun hc => ?_, B⟩
          by_cases hi : i = 0
          · subst hi; simp
          · rw [head?_take_pos (Nat.pos_of_ne_zero hi)]
            exact (hasDD_cons_false.mp hdd).1 hc
      | none =>
        rw [hcs] at h
        by_cases hc : c = '.'
        · simp only [hc, if_pos rfl] at h
          cases h
          subst hc
          have hcsne : cs ≠ [] := by
            intro hn; subst hn; simp at hlast
          refine ⟨by simp, by simp [hasDD], ?_, fun _ => rfl⟩
          cases cs with
          | nil => exact absurd rfl hcsne
          | cons x xs => simp only [List.length_cons]; omega
        · simp [hc] at h
  obtain ⟨A, B, C, D⟩ := core k hlast hdd p h
  have hp0 : 0 < p := by
    rcases Nat.eq_zero_or_pos p with h0 | h0
    · exact absurd (D h0) hhead
    · exact h0
  refine ⟨hp0, by omega, ?_, ?_, A, B⟩
  · have hl : (k.take p).length = p := length_take_rindex h
    intro hcon
    rw [hcon] at hl
    simp at hl; omega
  · rw [head?_take_pos hp0]; exact hhead

/-! Lemmas about set-like list operations and lookups. -/

theorem stripDot_eq_self {s : PyStr} (h : s.getLast? ≠ some '.') :
    stripDot s = s := by
  unfold stripDot
  rw [if_neg h]

theorem nsAdd_mem {l : List PyStr} {x y : PyStr} :
    y ∈ nsAdd l x ↔ y ∈ l ∨ y = x := by
  unfold nsAdd
  by_cases h : x ∈ l
  · rw [if_pos h]
    constructor
    · exact Or.inl
    · rintro (hy | rfl)
      · exact hy
      · exact h
  · rw [if_neg h]
    simp [List.mem_append]

theorem nsUnion_mem {a b : List PyStr} {x : PyStr} :
    x ∈ nsUnion a b ↔ x ∈ a ∨ x ∈ b := by
  unfold nsUnion
  simp only [List.mem_append, List.mem_filter, decide_eq_true_eq]
  constructor
  · rintro (h | ⟨h, _⟩)
    · exact Or.inl h
    · exact Or.inr h
  · rintro (h | h)
    · exact Or.inl h
    · by_cases ha : x ∈ a
      · exact Or.inl ha
      · exact Or.inr ⟨h, ha⟩

theorem lookupKey_isSome {T : Type} {l : List (PyStr × T)} {k : PyStr} :
    (lookupKey l k).isSome = true ↔ k ∈ keysOf l := by
  induction l with
  | nil => simp [lookupKey, keysOf]
  | cons kv rest ih =>
    by_cases h : kv.1 = k
    · have hl : lookupKey (kv :: rest) k = some kv.2 := by
        show (if kv.1 = k then some kv.2 else lookupKey rest k) = some kv.2
        rw [if_pos h]
      rw [hl]
      constructor
      · intro _
        unfold keysOf
        rw [List.map_cons]
        exact List.mem_cons.mpr (Or.inl h.symm)
      · intro _
        rfl
    · have hl : lookupKey (kv :: rest) k = lookupKey rest k := by
        show (if kv.1 = k then some kv.2 else lookupKey rest k) = lookupKey rest k
        rw [if_neg h]
      rw [hl, ih]
      unfold keysOf
      rw [List.map_cons]
      constructor
      · intro hm
        exact List.mem_cons.mpr (Or.inr hm)
      · intro hm
        rcases List.mem_cons.mp hm with rfl | hm
        · exact absurd rfl h
        · exact hm

theorem lookupKey_eq_none {T : Type} {l : List (PyStr × T)} {k : PyStr} :
    lookupKey l k = none ↔ k ∉ keysOf l := by
  constructor
  · intro h hm
    rw [← lookupKey_isSome, h] at hm
    exact Bool.false_ne_true hm
  · intro h
    cases hl : lookupKey l k with
    | none => rfl
    | some v =>
      exfalso
      apply h
      rw [← lookupKey_isSome, hl]
      rfl

theorem lookupKey_append_some {T : Type} {a : List (PyStr × T)}
    (b : List (PyStr × T)) {k : PyStr} {v : T} (h : lookupKey a k = some v) :
    lookupKey (a ++ b) k = some v := by
  induction a with
  | nil => simp [lookupKey] at h
  | cons kv rest ih =>
    by_cases hh : kv.1 = k
    · simp only [lookupKey, if_pos hh] at h
      simp [lookupKey, hh, h]
    · simp only [lookupKey, if_neg hh] at h
      simp [lookupKey, hh, ih h]

theorem lookupKey_append_none {T : Type} {a : List (PyStr × T)}
    (b : List (PyStr × T)) {k : PyStr} (h : lookupKey a k = none) :
    lookupKey (a ++ b) k = lookupKey b k := by
  induction a with
  | nil => simp
  | cons kv rest ih =>
    by_cases hh : kv.1 = k
    · simp [lookupKey, hh] at h
    · simp only [lookupKey, if_neg hh] at h
      simp [lookupKey, hh, ih h]

theorem hasKey_append_single {T : Type} {items : List (PyStr × T)}
    {ns : List PyStr} {k k' : PyStr} {v : T} :
    hasKey (⟨items ++ [(k, v)], ns⟩ : Base T) k' =
      (hasKey (⟨items, ns⟩ : Base T) k' || decide (k = k')) := by
  unfold hasKey
  simp only
  cases h : lookupKey items k' with
  | some w => rw [lookupKey_append_some _ h]; simp [h]
  | none =>
    rw [lookupKey_append_none _ h]
    by_cases hk : k = k' <;> simp [lookupKey, hk]

theorem ancChain_mem {k x : PyStr} :
    x ∈ ancChain k ↔ x = k ∨ x ∈ ancestors k := by
  unfold ancChain
  simp

/-! Characterization of add_namespace on a well-formed name. -/

theorem addNamespaceA_succ_none {T : Type} {f : Nat} {e : Base T} {ns : PyStr}
    {ok : Bool} (h1 : stripDot ns ≠ []) (h2 : hasKey e (stripDot ns) = false)
    (h3 : ¬((!ok) = true ∧ stripDot ns ∈ e.namespaces))
    (hrd : rindexDot (stripDot ns) = none) :
    addNamespaceA (f + 1) e ns ok =
      .ok { e with namespaces := nsAdd e.namespaces (stripDot ns) } := by
  simp only [addNamespaceA]
  rw [if_neg h1, if_neg (by rw [h2]; exact Bool.false_ne_true), if_neg h3]
  split
  · rename_i pos heq
    rw [hrd] at heq
    exact absurd heq (by simp)
  · rfl

theorem addNamespaceA_succ_some {T : Type} {f : Nat} {e : Base T} {ns : PyStr}
    {ok : Bool} {p : Nat} (h1 : stripDot ns ≠ [])
    (h2 : hasKey e (stripDot ns) = false)
    (h3 : ¬((!ok) = true ∧ stripDot ns ∈ e.namespaces))
    (hrd : rindexDot (stripDot ns) = some p)
    (h4 : 0 < p ∧ p < (stripDot ns).length - 1) :
    addNamespaceA (f + 1) e ns ok =
      (match addNamespaceA f e ((stripDot ns).take p) true with
       | .ok e' => .ok { e' with namespaces := nsAdd e'.namespaces (stripDot ns) }
       | .error err => .error err) := by
  simp only [addNamespaceA]
  rw [if_neg h1, if_neg (by rw [h2]; exact Bool.false_ne_true), if_neg h3]
  split
  · rename_i pos heq
    rw [hrd] at heq
    injection heq with heq
    subst heq
    rw [if_pos h4]
  · rename_i heq
    rw [hrd] at heq
    exact absurd heq (by simp)

theorem addNamespaceA_items {T : Type} :
    ∀ (f : Nat) (e : Base T) (ns : PyStr) (ok : Bool) (e' : Base T),
    addNamespaceA f e ns ok = .ok e' → e'.items = e.items := by
  intro f
  induction f with
  | zero =>
    intro e ns ok e' h
    exact absurd h (by simp [addNamespaceA])
  | succ f ih =>
    intro e ns ok e' h
    simp only [addNamespaceA] at h
    split at h
    · exact absurd h (by simp)
    · split at h
      · exact absurd h (by simp)
      · split at h
        · exact absurd h (by simp)
        · split at h
          · split at h
            · split at h
              · rename_i e'' hrec
                cases h
                show e''.items = e.items
                exact ih _ _ _ _ hrec
              · exact absurd h (by simp)
            · exact absurd h (by simp)
          · cases h
            rfl

theorem addNamespaceA_ok {T : Type} :
    ∀ (f : Nat) (e : Base T) (ns : PyStr), WFkey ns → ns.length + 1 ≤ f →
    (∀ a ∈ ancChain ns, hasKey e a = false) →
    ∃ nss, addNamespaceA f e ns true = .ok ⟨e.items, nss⟩ ∧
      ∀ x, x ∈ nss ↔ (x ∈ e.namespaces ∨ x ∈ ancChain ns) := by
  intro f
  induction f with
  | zero => intro e ns hw hf _; omega
  | succ f ih =>
    intro e ns hw hf hnk
    have hstrip : stripDot ns = ns := stripDot_eq_self hw.2.2.1
    have hne : ns ≠ [] := hw.1
    have hkey : hasKey e ns = false := hnk ns (by simp [ancChain])
    cases hrd : rindexDot ns with
    | none =>
      rw [addNamespaceA_succ_none (by rw [hstrip]; exact hne)
        (by rw [hstrip]; exact hkey) (by simp) (by rw [hstrip]; exact hrd)]
      rw [hstrip]
      refine ⟨nsAdd e.namespaces ns, rfl, ?_⟩
      intro x
      rw [nsAdd_mem, ancChain_mem, ancestors_eq_none hrd]
      simp
    | some p =>
      obtain ⟨hp0, hplt, hwt⟩ := WFkey_split hw hrd
      have hlen := length_take_rindex hrd
      have hchain : ancChain (ns.take p) = ancestors ns := by
        rw [ancChain, ancestors_eq_some hrd]
      obtain ⟨nss', hok, hmem⟩ := ih e (ns.take p) hwt (by omega)
        (fun a ha => hnk a (by
          rw [ancChain_mem]
          right
          rw [← hchain]
          exact ha))
      rw [addNamespaceA_succ_some (by rw [hstrip]; exact hne)
        (by rw [hstrip]; exact hkey) (by simp) (by rw [hstrip]; exact hrd)
        (by rw [hstrip]; exact ⟨hp0, hplt⟩)]
      rw [hstrip, hok]
      refine ⟨nsAdd nss' ns, rfl, ?_⟩
      intro x
      rw [nsAdd_mem, ancChain_mem]
      rw [hmem x, hchain]
      tauto

theorem addNamespaceA_err {T : Type} :
    ∀ (f : Nat) (e : Base T) (ns : PyStr), WFkey ns → ns.length + 1 ≤ f →
    (∃ a ∈ ancChain ns, hasKey e a = true) →
    ∃ c, addNamespaceA f e ns true = .error (.collision c) := by
  intro f
  induction f with
  | zero => intro e ns hw hf _; omega
  | succ f ih =>
    intro e ns hw hf hbad
    have hstrip : stripDot ns = ns := stripDot_eq_self hw.2.2.1
    have hne : ns ≠ [] := hw.1
    by_cases hkey : hasKey e ns = true
    · refine ⟨ns, ?_⟩
      simp only [addNamespaceA]
      rw [hstrip, if_neg hne, if_pos hkey]
    · have hkey' : hasKey e ns = false := by
        cases h : hasKey e ns
        · rfl
        · exact absurd h hkey
      obtain ⟨a, ha, hk⟩ := hbad
      have ha' : a ∈ ancestors ns := by
        rcases ancChain_mem.mp ha with rfl | h
        · exact absurd hk hkey
        · exact h
      cases hrd : rindexDot ns with
      | none =>
        rw [ancestors_eq_none hrd] at ha'
        simp at ha'
      | some p =>
        obtain ⟨hp0, hplt, hwt⟩ := WFkey_split hw hrd
        have hlen := length_take_rindex hrd
        have hchain : ancChain (ns.take p) = ancestors ns := by
          rw [ancChain, ancestors_eq_some hrd]
        obtain ⟨c, hc⟩ := ih e (ns.take p) hwt (by omega)
          ⟨a, by rw [hchain]; exact ha', hk⟩
        refine ⟨c, ?_⟩
        rw [addNamespaceA_succ_some (by rw [hstrip]; exact hne)
          (by rw [hstrip]; exact hkey') (by simp) (by rw [hstrip]; exact hrd)
          (by rw [hstrip]; exact ⟨hp0, hplt⟩)]
        rw [hstrip, hc]

/-! Characterization of __setitem__ on a well-formed key. -/

theorem set_succ_none {T : Type} {e : Base T} {k : PyStr} {v : T}
    (hl : k.getLast? ≠ some '.')
    (hp : ¬(hasKey e k = true ∨ k ∈ e.namespaces))
    (hrd : rindexDot k = none) :
    Base.set e k v = .ok { e with items := e.items ++ [(k, v)] } := by
  unfold Base.set
  rw [if_neg hl, if_neg hp]
  split
  · rename_i pos heq
    rw [hrd] at heq
    exact absurd heq (by simp)
  · rfl

theorem set_succ_some {T : Type} {e : Base T} {k : PyStr} {v : T} {p : Nat}
    (hl : k.getLast? ≠ some '.')
    (hp : ¬(hasKey e k = true ∨ k ∈ e.namespaces))
    (hrd : rindexDot k = some p) (h4 : 0 < p ∧ p < k.length - 1) :
    Base.set e k v =
      (match Base.add_namespace e (k.take p) true with
       | .ok e' => .ok { e' with items := e'.items ++ [(k, v)] }
       | .error err => .error err) := by
  unfold Base.set
  rw [if_neg hl, if_neg hp]
  split
  · rename_i pos heq
    rw [hrd] at heq
    injection heq with heq
    subst heq
    rw [if_pos h4]
  · rename_i heq
    rw [hrd] at heq
    exact absurd heq (by simp)

theorem set_err_present {T : Type} {e : Base T} {k : PyStr} {v : T}
    (hl : k.getLast? ≠ some '.')
    (h : hasKey e k = true ∨ k ∈ e.namespaces) :
    Base.set e k v = .error (.collision k) := by
  unfold Base.set
  rw [if_neg hl, if_pos h]

theorem set_ok {T : Type} {e : Base T} {k : PyStr} {v : T} (hw : WFkey k)
    (h1 : hasKey e k = false) (h2 : k ∉ e.namespaces)
    (h3 : ∀ a ∈ ancestors k, hasKey e a = false) :
    ∃ nss, Base.set e k v = .ok ⟨e.items ++ [(k, v)], nss⟩ ∧
      ∀ x, x ∈ nss ↔ x ∈ e.namespaces ∨ x ∈ ancestors k := by
  have hp : ¬(hasKey e k = true ∨ k ∈ e.namespaces) := by
    rintro (hc | hc)
    · rw [h1] at hc
      exact Bool.false_ne_true hc
    · exact h2 hc
  cases hrd : rindexDot k with
  | none =>
    rw [set_succ_none hw.2.2.1 hp hrd]
    refine ⟨e.namespaces, rfl, ?_⟩
    intro x
    rw [ancestors_eq_none hrd]
    simp
  | some p =>
    obtain ⟨hp0, hplt, hwt⟩ := WFkey_split hw hrd
    have hlen := length_take_rindex hrd
    have hchain : ancChain (k.take p) = ancestors k := by
      rw [ancChain, ancestors_eq_some hrd]
    obtain ⟨nss, hok, hmem⟩ := addNamespaceA_ok ((k.take p).length + 1) e
      (k.take p) hwt (by omega) (fun a ha => h3 a (by rw [← hchain]; exact ha))
    rw [set_succ_some hw.2.2.1 hp hrd ⟨hp0, hplt⟩]
    unfold Base.add_namespace
    rw [hok]
    refine ⟨nss, rfl, ?_⟩
    intro x
    rw [hmem x, hchain]

theorem set_err_anc {T : Type} {e : Base T} {k : PyStr} {v : T} (hw : WFkey k)
    (h1 : hasKey e k = false) (h2 : k ∉ e.namespaces)
    (h3 : ∃ a ∈ ancestors k, hasKey e a = true) :
    ∃ c, Base.set e k v = .error (.collision c) := by
  have hp : ¬(hasKey e k = true ∨ k ∈ e.namespaces) := by
    rintro (hc | hc)
    · rw [h1] at hc
      exact Bool.false_ne_true hc
    · exact h2 hc
  obtain ⟨a, ha, hk⟩ := h3
  cases hrd : rindexDot k with
  | none =>
    rw [ancestors_eq_none hrd] at ha
    simp at ha
  | some p =>
    obtain ⟨hp0, hplt, hwt⟩ := WFkey_split hw hrd
    have hlen := length_take_rindex hrd
    have hchain : ancChain (k.take p) = ancestors k := by
      rw [ancChain, ancestors_eq_some hrd]
    obtain ⟨c, hc⟩ := addNamespaceA_err ((k.take p).length + 1) e (k.take p)
      hwt (by omega) ⟨a, by rw [hchain]; exact ha, hk⟩
    refine ⟨c, ?_⟩
    rw [set_succ_some hw.2.2.1 hp hrd ⟨hp0, hplt⟩]
    unfold Base.add_namespace
    rw [hc]

theorem set_err_shape {T : Type} {e : Base T} {k : PyStr} {v : T} (hw : WFkey k)
    {err : Err} (h : Base.set e k v = .error err) : ∃ c, err = .collision c := by
  by_cases hc1 : hasKey e k = true ∨ k ∈ e.namespaces
  · rw [set_err_present hw.2.2.1 hc1] at h
    injection h with h
    exact ⟨k, h.symm⟩
  · have h1 : hasKey e k = false := by
      cases hb : hasKey e k
      · rfl
      · exact absurd (Or.inl hb) hc1
    have h2 : k ∉ e.namespaces := fun hm => hc1 (Or.inr hm)
    by_cases hc2 : ∃ a ∈ ancestors k, hasKey e a = true
    · obtain ⟨c, hcc⟩ := set_err_anc hw h1 h2 hc2
      rw [hcc] at h
      injection h with h
      exact ⟨c, h.symm⟩
    · have h3 : ∀ a ∈ ancestors k, hasKey e a = false := by
        intro a ha
        cases hb : hasKey e a
        · rfl
        · exact absurd ⟨a, ha, hb⟩ hc2
      obtain ⟨nss, hok, _⟩ := @set_ok T e k v hw h1 h2 h3
      rw [hok] at h
      exact absurd h (by simp)

theorem set_ok_state {T : Type} {e : Base T} {k : PyStr} {v : T} {e' : Base T}
    (h : Base.set e k v = .ok e') :
    e'.items = e.items ++ [(k, v)] ∧ hasKey e k = false ∧ k ∉ e.namespaces := by
  unfold Base.set at h
  split at h
  · exact absurd h (by simp)
  · split at h
    · exact absurd h (by simp)
    · rename_i hl hp
      have h1 : hasKey e k = false := by
        cases hb : hasKey e k
        · rfl
        · exact absurd (Or.inl hb) hp
      have h2 : k ∉ e.namespaces := fun hm => hp (Or.inr hm)
      refine ⟨?_, h1, h2⟩
      split at h
      · split at h
        · split at h
          · rename_i e'' hrec
            cases h
            show e''.items ++ [(k, v)] = e.items ++ [(k, v)]
            rw [addNamespaceA_items _ _ _ _ _ hrec]
          · exact absurd h (by simp)
        · exact absurd h (by simp)
      · cases h
        rfl

/-! Characterization of the insertion loops. -/

theorem keysOf_cons {T : Type} {kv : PyStr × T} {rest : List (PyStr × T)} :
    keysOf (kv :: rest) = kv.1 :: keysOf rest := rfl

theorem ancAll_cons {k : PyStr} {ks : List PyStr} :
    ancAll (k :: ks) = ancestors k ++ ancAll ks := by
  simp [ancAll]

theorem goodList_cons {T : Type} {kv : PyStr × T} {rest : List (PyStr × T)}
    (h : goodList (kv :: rest)) :
    goodList rest ∧ kv.1 ∉ keysOf rest ∧ WFkey kv.1 ∧
      (∀ k' ∈ keysOf rest, kv.1 ∉ ancestors k' ∧ k' ∉ ancestors kv.1) := by
  obtain ⟨hnd, hwf, hpw⟩ := h
  rw [keysOf_cons] at hnd hwf hpw
  rw [List.nodup_cons] at hnd
  refine ⟨⟨hnd.2, ?_, ?_⟩, hnd.1, hwf _ (List.mem_cons_self _ _), ?_⟩
  · intro k hk
    exact hwf k (List.mem_cons.mpr (Or.inr hk))
  · intro k1 h1 k2 h2
    exact hpw k1 (List.mem_cons.mpr (Or.inr h1)) k2 (List.mem_cons.mpr (Or.inr h2))
  · intro k' hk'
    constructor
    · exact hpw kv.1 (List.mem_cons_self _ _) k' (List.mem_cons.mpr (Or.inr hk'))
    · exact hpw k' (List.mem_cons.mpr (Or.inr hk')) kv.1 (List.mem_cons_self _ _)

theorem setAll_cons_ok {T : Type} {e e1 : Base T} {kv : PyStr × T}
    {rest : List (PyStr × T)} (h : Base.set e kv.1 kv.2 = .ok e1) :
    setAll e (kv :: rest) = setAll e1 rest := by
  show (match Base.set e kv.1 kv.2 with
    | .ok e' => setAll e' rest
    | .error err => .error err) = setAll e1 rest
  rw [h]

theorem setAll_ok {T : Type} :
    ∀ (l : List (PyStr × T)) (e : Base T), goodList l →
    (∀ k ∈ keysOf l, hasKey e k = false ∧ k ∉ e.namespaces ∧
      ∀ a ∈ ancestors k, hasKey e a = false) →
    ∃ nss, setAll e l = .ok ⟨e.items ++ l, nss⟩ ∧
      ∀ x, x ∈ nss ↔ x ∈ e.namespaces ∨ x ∈ ancAll (keysOf l) := by
  intro l
  induction l with
  | nil =>
    intro e _ _
    refine ⟨e.namespaces, ?_, ?_⟩
    · rw [List.append_nil]
      rfl
    · intro x
      simp [ancAll, keysOf]
  | cons kv rest ih =>
    intro e hg hc
    obtain ⟨hgr, hknr, hwk, hcr⟩ := goodList_cons hg
    obtain ⟨hk1, hk2, hk3⟩ := hc kv.1 (by rw [keysOf_cons]; exact List.mem_cons_self _ _)
    obtain ⟨nss1, hset, hm1⟩ := @set_ok T e kv.1 kv.2 hwk hk1 hk2 hk3
    rw [setAll_cons_ok hset]
    have hcond : ∀ k ∈ keysOf rest,
        hasKey (⟨e.items ++ [(kv.1, kv.2)], nss1⟩ : Base T) k = false ∧
        k ∉ nss1 ∧
        ∀ a ∈ ancestors k,
          hasKey (⟨e.items ++ [(kv.1, kv.2)], nss1⟩ : Base T) a = false := by
      intro k hk
      obtain ⟨hck1, hck2, hck3⟩ := hc k (by rw [keysOf_cons]; exact List.mem_cons.mpr (Or.inr hk))
      obtain ⟨hanc1, hanc2⟩ := hcr k hk
      refine ⟨?_, ?_, ?_⟩
      · rw [hasKey_append_single]
        show (hasKey e k || decide (kv.1 = k)) = false
        rw [hck1]
        have : kv.1 ≠ k := fun hh => hknr (hh ▸ hk)
        simp [this]
      · intro hmem
        rcases (hm1 k).mp hmem with hmm | hmm
        · exact hck2 hmm
        · exact hanc2 hmm
      · intro a ha
        rw [hasKey_append_single]
        show (hasKey e a || decide (kv.1 = a)) = false
        rw [hck3 a ha]
        have : kv.1 ≠ a := fun hh => hanc1 (hh ▸ ha)
        simp [this]
    obtain ⟨nss, hrest, hm⟩ := ih ⟨e.items ++ [(kv.1, kv.2)], nss1⟩ hgr hcond
    refine ⟨nss, ?_, ?_⟩
    · rw [hrest]
      have h2 : (⟨e.items ++ [(kv.1, kv.2)], nss1⟩ : Base T).items ++ rest =
          e.items ++ kv :: rest := by
        show e.items ++ [(kv.1, kv.2)] ++ rest = e.items ++ kv :: rest
        rw [List.append_assoc, List.singleton_append]
      rw [h2]
    · intro x
      rw [hm x, keysOf_cons, ancAll_cons]
      rw [hm1 x]
      simp only [List.mem_append]
      tauto

theorem setAll_ok_keys {T : Type} :
    ∀ (l : List (PyStr × T)) (e e'' : Base T), setAll e l = .ok e'' →
    ∀ k ∈ keysOf l, hasKey e k = false := by
  intro l
  induction l with
  | nil => intro e e'' _ k hk; simp [keysOf] at hk
  | cons kv rest ih =>
    intro e e'' h k hk
    cases hset : Base.set e kv.1 kv.2 with
    | error err =>
      rw [show setAll e (kv :: rest) = .error err from by
        show (match Base.set e kv.1 kv.2 with
          | .ok e' => setAll e' rest
          | .error err => .error err) = .error err
        rw [hset]] at h
      exact absurd h (by simp)
    | ok e1 =>
      rw [setAll_cons_ok hset] at h
      obtain ⟨hit, hnk, _⟩ := set_ok_state hset
      rw [keysOf_cons] at hk
      rcases List.mem_cons.mp hk with rfl | hk
      · exact hnk
      · have h1 := ih e1 e'' h k hk
        cases hb : hasKey e k
        · rfl
        · exfalso
          unfold hasKey at hb h1
          cases hl : lookupKey e.items k with
          | none => rw [hl] at hb; exact Bool.noConfusion hb
          | some w =>
            rw [hit] at h1
            rw [lookupKey_append_some _ hl] at h1
            exact Bool.noConfusion h1

theorem setAll_err_shape {T : Type} :
    ∀ (l : List (PyStr × T)) (e : Base T), (∀ k ∈ keysOf l, WFkey k) →
    ∀ err, setAll e l = .error err → ∃ c, err = .collision c := by
  intro l
  induction l with
  | nil => intro e _ err h; exact absurd h (by simp [setAll])
  | cons kv rest ih =>
    intro e hwf err h
    cases hset : Base.set e kv.1 kv.2 with
    | error err0 =>
      rw [show setAll e (kv :: rest) = .error err0 from by
        show (match Base.set e kv.1 kv.2 with
          | .ok e' => setAll e' rest
          | .error err => .error err) = .error err0
        rw [hset]] at h
      injection h with h
      subst h
      exact set_err_shape (hwf kv.1 (by rw [keysOf_cons]; exact List.mem_cons_self _ _)) hset
    | ok e1 =>
      rw [setAll_cons_ok hset] at h
      exact ih e1 (fun k hk => hwf k (by rw [keysOf_cons]; exact List.mem_cons.mpr (Or.inr hk))) err h

theorem setAll_err_of_shared {T : Type} (l : List (PyStr × T)) (e : Base T)
    (hwf : ∀ k ∈ keysOf l, WFkey k)
    (hsh : ∃ k ∈ keysOf l, hasKey e k = true) :
    ∃ c, setAll e l = .error (.collision c) := by
  cases hres : setAll e l with
  | ok e'' =>
    obtain ⟨k, hk, hkk⟩ := hsh
    have := setAll_ok_keys l e e'' hres k hk
    rw [hkk] at this
    exact absurd this (by simp)
  | error err =>
    obtain ⟨c, rfl⟩ := setAll_err_shape l e hwf err hres
    exact ⟨c, rfl⟩

/-! Valid environments and re-insertion. -/

theorem valid_goodList {T : Type} {e : Base T} (h : Valid e) :
    goodList e.items := by
  obtain ⟨h1, h2, h3, h4⟩ := h
  refine ⟨h1, h2, ?_⟩
  intro k1 hk1 k2 hk2 hmem
  exact h3 k1 hk1 (h4 k2 hk2 k1 hmem)

theorem initBase_ok {T : Type} {e : Base T} (h : Valid e) :
    ∃ nss, initBase e.items = .ok ⟨e.items, nss⟩ ∧
      ∀ x, x ∈ nss ↔ x ∈ ancAll (keysOf e.items) := by
  obtain ⟨nss, hok, hm⟩ := setAll_ok e.items ⟨[], []⟩ (valid_goodList h)
    (by
      intro k _
      refine ⟨rfl, by simp, ?_⟩
      intro a _
      rfl)
  refine ⟨nss, ?_, ?_⟩
  · unfold initBase
    rw [hok]
    rfl
  · intro x
    rw [hm x]
    simp

theorem bind_eq_set {T : Type} {e : Base T} (h : Valid e) (k : PyStr) (v : T) :
    Base.bind e k v = Base.set e k v := by
  obtain ⟨nss, hinit, _⟩ := initBase_ok h
  unfold Base.bind
  rw [hinit]
  rfl

theorem hasKey_of_mem {T : Type} {e : Base T} {k : PyStr}
    (h : k ∈ keysOf e.items) : hasKey e k = true :=
  lookupKey_isSome.mpr h

theorem hasKey_of_not_mem {T : Type} {e : Base T} {k : PyStr}
    (h : k ∉ keysOf e.items) : hasKey e k = false := by
  unfold hasKey
  rw [lookupKey_eq_none.mpr h]
  rfl

theorem lookup_none_of_hasKey_false {T : Type} {e : Base T} {k : PyStr}
    (h : hasKey e k = false) : lookupKey e.items k = none := by
  cases hl : lookupKey e.items k with
  | none => rfl
  | some v =>
    exfalso
    unfold hasKey at h
    rw [hl] at h
    exact Bool.noConfusion h

theorem ancAll_mem {ks : List PyStr} {x : PyStr} :
    x ∈ ancAll ks ↔ ∃ k ∈ ks, x ∈ ancestors k := by
  unfold ancAll
  rw [List.mem_flatten]
  constructor
  · rintro ⟨l, hl, hx⟩
    obtain ⟨k, hk, rfl⟩ := List.mem_map.mp hl
    exact ⟨k, hk, hx⟩
  · rintro ⟨k, hk, hx⟩
    exact ⟨ancestors k, List.mem_map.mpr ⟨k, hk, rfl⟩, hx⟩

/-! Characterization of merge. -/

theorem mergeCore_step {T : Type} {A B a : Base T}
    (h : setAll ⟨[], []⟩ A.items = .ok a) :
    mergeCore A B =
      (match setAll a B.items with
       | .error err => .error err
       | .ok a2 =>
         .ok { a2 with namespaces := nsUnion A.namespaces B.namespaces }) := by
  unfold mergeCore
  rw [h]

theorem mergeCore_ok {T : Type} {A B : Base T} (hA : Valid A) (hB : Valid B)
    (hsh : ∀ k ∈ keysOf A.items, k ∉ keysOf B.items)
    (hcross : ∀ ka ∈ keysOf A.items, ∀ kb ∈ keysOf B.items,
      ka ∉ ancestors kb ∧ kb ∉ ancestors ka) :
    mergeCore A B =
      .ok ⟨A.items ++ B.items, nsUnion A.namespaces B.namespaces⟩ := by
  obtain ⟨nssA, hokA, hmA⟩ := setAll_ok A.items ⟨[], []⟩ (valid_goodList hA)
    (by
      intro k _
      exact ⟨rfl, by simp, fun a _ => rfl⟩)
  rw [mergeCore_step hokA]
  obtain ⟨nssB, hokB, hmB⟩ := setAll_ok B.items ⟨[] ++ A.items, nssA⟩
    (valid_goodList hB)
    (by
      intro kb hkb
      refine ⟨?_, ?_, ?_⟩
      · show hasKey (⟨A.items, nssA⟩ : Base T) kb = false
        apply hasKey_of_not_mem
        intro hmem
        exact hsh kb hmem hkb
      · intro hmem
        rcases (hmA kb).mp hmem with hc | hc
        · simp at hc
        · obtain ⟨ka, hka, hanc⟩ := ancAll_mem.mp hc
          exact (hcross ka hka kb hkb).2 hanc
      · intro a ha
        show hasKey (⟨A.items, nssA⟩ : Base T) a = false
        apply hasKey_of_not_mem
        intro hmem
        exact (hcross a hmem kb hkb).1 ha)
  rw [hokB]
  rfl

theorem mergeCore_err {T : Type} {A B : Base T} (hA : Valid A) (hB : Valid B)
    (hsh : ∃ k ∈ keysOf A.items, k ∈ keysOf B.items) :
    ∃ c, mergeCore A B = .error (.collision c) := by
  obtain ⟨nssA, hokA, hmA⟩ := setAll_ok A.items ⟨[], []⟩ (valid_goodList hA)
    (by
      intro k _
      exact ⟨rfl, by simp, fun a _ => rfl⟩)
  obtain ⟨k, hkA, hkB⟩ := hsh
  obtain ⟨c, hc⟩ := setAll_err_of_shared B.items ⟨[] ++ A.items, nssA⟩
    (fun kb hkb => hB.2.1 kb hkb)
    ⟨k, hkB, by
      show hasKey (⟨A.items, nssA⟩ : Base T) k = true
      exact hasKey_of_mem hkA⟩
  refine ⟨c, ?_⟩
  rw [mergeCore_step hokA, hc]

theorem merge_false_eq {T : Type} (A B : Base T) :
    Base.merge A B false = mergeCore A B := rfl

theorem merge_true_empty {T : Type} {A B : Base T}
    (h : A.namespaces.filter (fun x => x ∈ B.namespaces) = []) :
    Base.merge A B true = mergeCore A B := by
  unfold Base.merge
  rw [if_pos rfl, h]

theorem merge_true_nonempty {T : Type} {A B : Base T} {c : PyStr}
    {cs : List PyStr}
    (h : A.namespaces.filter (fun x => x ∈ B.namespaces) = c :: cs) :
    Base.merge A B true = .error (.collision c) := by
  unfold Base.merge
  rw [if_pos rfl, h]

/-! Characterization of enter_namespace. -/

theorem ensureDot_eq {n : PyStr} (h : n.getLast? ≠ some '.') :
    ensureDot n = n ++ ['.'] := by
  unfold ensureDot
  rw [if_neg h]

theorem goodList_sublist {T : Type} {l l' : List (PyStr × T)}
    (hs : List.Sublist l' l) (h : goodList l) : goodList l' := by
  obtain ⟨h1, h2, h3⟩ := h
  have hks : List.Sublist (keysOf l') (keysOf l) := List.Sublist.map _ hs
  refine ⟨List.Nodup.sublist hks h1, ?_, ?_⟩
  · intro k hk
    exact h2 k (hks.subset hk)
  · intro k1 h1' k2 h2'
    exact h3 k1 (hks.subset h1') k2 (hks.subset h2')

theorem isPrefixOf_exists : ∀ (a b : PyStr),
    a.isPrefixOf b = true ↔ ∃ t, a ++ t = b := by
  intro a
  induction a with
  | nil =>
    intro b
    constructor
    · intro _
      exact ⟨b, rfl⟩
    · intro _
      cases b with
      | nil => rfl
      | cons d ds => rfl
  | cons c cs ih =>
    intro b
    cases b with
    | nil =>
      constructor
      · intro hc
        exact absurd hc (by simp [List.isPrefixOf])
      · rintro ⟨t, ht⟩
        exact absurd ht (by simp)
    | cons d ds =>
      show (c == d && cs.isPrefixOf ds) = true ↔ _
      rw [Bool.and_eq_true, beq_iff_eq, ih ds]
      constructor
      · rintro ⟨rfl, t, rfl⟩
        exact ⟨t, rfl⟩
      · rintro ⟨t, ht⟩
        injection ht with h1 h2
        exact ⟨h1, t, h2⟩

theorem pref_decomp {nsd k : PyStr} (h : nsd.isPrefixOf k = true) :
    nsd ++ k.drop nsd.length = k := by
  obtain ⟨t, ht⟩ := (isPrefixOf_exists nsd k).mp h
  rw [← ht, List.drop_left]

theorem append_dot_cons {n t : PyStr} : (n ++ ['.']) ++ t = n ++ '.' :: t := by
  rw [List.append_assoc, List.singleton_append]

/-- Well-formedness of the suffix after stripping a dotted prefix off a
well-formed key. -/
theorem WFkey_suffix {n t : PyStr} (hw : WFkey (n ++ '.' :: t)) : WFkey t := by
  obtain ⟨hne, hhead, hlast, hdd⟩ := hw
  have htne : t ≠ [] := by
    intro rfl'
    subst rfl'
    rw [show n ++ ['.'] = n ++ ['.'] from rfl] at hlast
    exact hlast (List.getLast?_concat n)
  refine ⟨htne, hasDD_mid hdd, ?_, ?_⟩
  · intro hcon
    apply hlast
    rw [List.getLast?_append]
    rw [getLast?_cons_of_ne_nil htne, hcon]
    rfl
  · have : hasDD ((n ++ ['.']) ++ t) = false := by
      rw [append_dot_cons]
      exact hdd
    exact hasDD_append_right this

theorem lookup_strip {T : Type} (nsd : PyStr) :
    ∀ (l : List (PyStr × T)) (k : PyStr) (v : T),
    lookupKey l (nsd ++ k) = some v →
    lookupKey ((l.filter (fun kv => nsd.isPrefixOf kv.1)).map
      (fun kv => (kv.1.drop nsd.length, kv.2))) k = some v := by
  intro l
  induction l with
  | nil => intro k v h; exact absurd h (by simp [lookupKey])
  | cons kv rest ih =>
    intro k v h
    by_cases he : kv.1 = nsd ++ k
    · have hv : kv.2 = v := by
        have : lookupKey (kv :: rest) (nsd ++ k) = some kv.2 := by
          show (if kv.1 = nsd ++ k then some kv.2 else _) = some kv.2
          rw [if_pos he]
        rw [this] at h
        injection h
      have hpref : nsd.isPrefixOf kv.1 = true := by
        rw [he]
        exact (isPrefixOf_exists nsd (nsd ++ k)).mpr ⟨k, rfl⟩
      have hdrop : kv.1.drop nsd.length = k := by
        rw [he, List.drop_left]
      have hfil : List.filter (fun kv => nsd.isPrefixOf kv.1) (kv :: rest) =
          kv :: List.filter (fun kv => nsd.isPrefixOf kv.1) rest := by
        rw [List.filter_cons, if_pos hpref]
      rw [hfil, List.map_cons]
      show (if kv.1.drop nsd.length = k then some kv.2 else _) = some v
      rw [if_pos hdrop, hv]
    · have h' : lookupKey rest (nsd ++ k) = some v := by
        have : lookupKey (kv :: rest) (nsd ++ k) = lookupKey rest (nsd ++ k) := by
          show (if kv.1 = nsd ++ k then some kv.2 else _) = _
          rw [if_neg he]
        rw [this] at h
        exact h
      by_cases hpref : nsd.isPrefixOf kv.1 = true
      · have hdrop : kv.1.drop nsd.length ≠ k := by
          intro hcon
          apply he
          rw [← pref_decomp hpref, hcon]
        have hfil : List.filter (fun kv => nsd.isPrefixOf kv.1) (kv :: rest) =
            kv :: List.filter (fun kv => nsd.isPrefixOf kv.1) rest := by
          rw [List.filter_cons, if_pos hpref]
        rw [hfil, List.map_cons]
        show (if kv.1.drop nsd.length = k then some kv.2 else _) = some v
        rw [if_neg hdrop]
        exact ih k v h'
      · have hfil : List.filter (fun kv => nsd.isPrefixOf kv.1) (kv :: rest) =
            List.filter (fun kv => nsd.isPrefixOf kv.1) rest := by
          rw [List.filter_cons, if_neg hpref]
        rw [hfil]
        exact ih k v h'

theorem foldl_reroot_mem (nsd : PyStr) :
    ∀ (l acc : List PyStr) (x : PyStr),
    (x ∈ l.foldl (fun acc m =>
        if nsd.isPrefixOf m then nsAdd acc (m.drop nsd.length) else acc) acc ↔
      x ∈ acc ∨ ∃ m ∈ l, nsd.isPrefixOf m = true ∧ x = m.drop nsd.length) := by
  intro l
  induction l with
  | nil => intro acc x; simp
  | cons m rest ih =>
    intro acc x
    rw [List.foldl_cons]
    by_cases hp : nsd.isPrefixOf m = true
    · rw [if_pos hp, ih]
      rw [nsAdd_mem]
      constructor
      · rintro ((hx | rfl) | ⟨m', hm', hp', hx⟩)
        · exact Or.inl hx
        · exact Or.inr ⟨m, List.mem_cons_self _ _, hp, rfl⟩
        · exact Or.inr ⟨m', List.mem_cons.mpr (Or.inr hm'), hp', hx⟩
      · rintro (hx | ⟨m', hm', hp', hx⟩)
        · exact Or.inl (Or.inl hx)
        · rcases List.mem_cons.mp hm' with rfl | hm'
          · exact Or.inl (Or.inr hx)
          · exact Or.inr ⟨m', hm', hp', hx⟩
    · rw [if_neg hp, ih]
      constructor
      · rintro (hx | ⟨m', hm', hp', hx⟩)
        · exact Or.inl hx
        · exact Or.inr ⟨m', List.mem_cons.mpr (Or.inr hm'), hp', hx⟩
      · rintro (hx | ⟨m', hm', hp', hx⟩)
        · exact Or.inl hx
        · rcases List.mem_cons.mp hm' with rfl | hm'
          · exact absurd hp' hp
          · exact Or.inr ⟨m', hm', hp', hx⟩

theorem enter_step {T : Type} {e : Base T} {n : PyStr}
    (hc : Base.contains_namespace e n = true) {a : Base T}
    (hset : setAll ⟨[], []⟩
      ((e.items.filter (fun kv => (ensureDot n).isPrefixOf kv.1)).map
        (fun kv => (kv.1.drop (ensureDot n).length, kv.2))) = .ok a) :
    Base.enter_namespace e n =
      .ok { a with
            namespaces :=
              e.namespaces.foldl
                (fun acc m =>
                  if (ensureDot n).isPrefixOf m then
                    nsAdd acc (m.drop (ensureDot n).length)
                  else acc)
                a.namespaces } := by
  unfold Base.enter_namespace
  rw [if_neg (by rw [hc]; simp), hset]

/-! Claim-level theorems for the binding environment. -/

/-- C1 (amended).  merge with disjoint_namespaces fails with Collision
whenever the two namespace sets intersect; in either mode it also fails with
Collision whenever the same leaf key is bound in both environments; when no
leaf key is shared and no key of one environment is a dotted ancestor of a
key of the other, merge(disjoint_namespaces=false) returns the environment
whose bindings are the concatenation of both and whose namespace set is the
union of both namespace sets, and merge(disjoint_namespaces=true) returns
the same whenever the namespace sets are additionally disjoint. -/
theorem merge_spec {T : Type} (A B : Base T) (hA : Valid A) (hB : Valid B) :
    ((∃ x ∈ A.namespaces, x ∈ B.namespaces) →
      ∃ c, Base.merge A B true = .error (.collision c)) ∧
    ((∃ k ∈ keysOf A.items, k ∈ keysOf B.items) →
      ∀ d, ∃ c, Base.merge A B d = .error (.collision c)) ∧
    ((∀ k ∈ keysOf A.items, k ∉ keysOf B.items) →
     (∀ ka ∈ keysOf A.items, ∀ kb ∈ keysOf B.items,
        ka ∉ ancestors kb ∧ kb ∉ ancestors ka) →
     (Base.merge A B false =
        .ok ⟨A.items ++ B.items, nsUnion A.namespaces B.namespaces⟩ ∧
      ((∀ x ∈ A.namespaces, x ∉ B.namespaces) →
        Base.merge A B true =
          .ok ⟨A.items ++ B.items, nsUnion A.namespaces B.namespaces⟩))) := by
  refine ⟨?_, ?_, ?_⟩
  · rintro ⟨x, hxA, hxB⟩
    cases hf : A.namespaces.filter (fun y => y ∈ B.namespaces) with
    | nil =>
      exfalso
      rw [List.filter_eq_nil_iff] at hf
      have := hf x hxA
      simp at this
      exact this hxB
    | cons c cs => exact ⟨c, merge_true_nonempty hf⟩
  · intro hsh d
    cases d
    · rw [merge_false_eq]
      exact mergeCore_err hA hB hsh
    · cases hf : A.namespaces.filter (fun y => y ∈ B.namespaces) with
      | nil =>
        rw [merge_true_empty hf]
        exact mergeCore_err hA hB hsh
      | cons c cs => exact ⟨c, merge_true_nonempty hf⟩
  · intro hnosh hcross
    have hok := mergeCore_ok hA hB hnosh hcross
    refine ⟨?_, ?_⟩
    · rw [merge_false_eq]
      exact hok
    · intro hdisj
      have hf : A.namespaces.filter (fun y => y ∈ B.namespaces) = [] := by
        rw [List.filter_eq_nil_iff]
        intro a ha
        simpa using hdisj a ha
      rw [merge_true_empty hf]
      exact hok

/-- C1, counterexample to the claim as stated: two environments with empty
(hence non-intersecting) namespace sets whose merge with
disjoint_namespaces=true nevertheless fails with Collision, because the same
leaf key is bound in both. -/
theorem merge_counterexample :
    Base.merge (⟨[((("x").toList), 1)], []⟩ : Base Nat)
        ⟨[((("x").toList), 2)], []⟩ true = .error (.collision (("x").toList)) ∧
    (⟨[((("x").toList), 1)], []⟩ : Base Nat).namespaces.filter
      (fun y => y ∈ (⟨[((("x").toList), 2)], []⟩ : Base Nat).namespaces) = [] := by
  decide

/-- Witness for merge_spec at a concrete pair of environments. -/
theorem merge_spec_witness :
    Base.merge (⟨[((("a").toList), 1)], []⟩ : Base Nat)
        ⟨[((("b").toList), 2)], []⟩ false =
      .ok ⟨[((("a").toList), 1), ((("b").toList), 2)], nsUnion [] []⟩ ∧
    Base.merge (⟨[((("a").toList), 1)], []⟩ : Base Nat)
        ⟨[((("b").toList), 2)], []⟩ true =
      .ok ⟨[((("a").toList), 1), ((("b").toList), 2)], nsUnion [] []⟩ := by
  have h := merge_spec (⟨[((("a").toList), 1)], []⟩ : Base Nat)
    ⟨[((("b").toList), 2)], []⟩ (by decide) (by decide)
  have h3 := h.2.2 (by decide) (by decide)
  exact ⟨h3.1, h3.2 (by decide)⟩

/-- C2 (amended).  filter keeps exactly the entries satisfying the
predicate; with keep_empty_namespaces=True the result carries the original
namespace set verbatim; with False the namespace set is not empty in
general: it holds exactly the ancestor namespaces implicitly declared by the
surviving keys. -/
theorem filter_spec {T : Type} (e : Base T) (pred : PyStr → T → Bool)
    (h : Valid e) :
    Base.filter e pred true =
      .ok ⟨e.items.filter (fun kv => pred kv.1 kv.2), e.namespaces⟩ ∧
    ∃ r, Base.filter e pred false = .ok r ∧
      r.items = e.items.filter (fun kv => pred kv.1 kv.2) ∧
      ∀ x, x ∈ r.namespaces ↔
        x ∈ ancAll (keysOf (e.items.filter (fun kv => pred kv.1 kv.2))) := by
  obtain ⟨nss, hok, hm⟩ := setAll_ok (e.items.filter (fun kv => pred kv.1 kv.2))
    ⟨[], []⟩ (goodList_sublist (List.filter_sublist _) (valid_goodList h))
    (fun k _ => ⟨rfl, by simp, fun a _ => rfl⟩)
  constructor
  · unfold Base.filter
    rw [hok]
    rfl
  · refine ⟨⟨[] ++ e.items.filter (fun kv => pred kv.1 kv.2), nss⟩, ?_, rfl, ?_⟩
    · unfold Base.filter
      rw [hok]
      rfl
    · intro x
      rw [hm x]
      simp

/-- C2, counterexample to the claim as stated: filtering with
keep_empty_namespaces=False does not drop the namespace set entirely; the
ancestor namespace of the surviving key a.b remains declared. -/
theorem filter_counterexample :
    Base.filter (⟨[((("a.b").toList), 1)], [(("a").toList)]⟩ : Base Nat)
      (fun _ _ => true) false =
      .ok ⟨[((("a.b").toList), 1)], [(("a").toList)]⟩ ∧
    [(("a").toList)] ≠ ([] : List PyStr) := by
  decide

/-- Witness for filter_spec at a concrete environment and predicate. -/
theorem filter_spec_witness :
    Base.filter (⟨[((("a.b").toList), 1), ((("c").toList), 2)],
        [(("a").toList)]⟩ : Base Nat)
      (fun k _ => decide (k = ("c").toList)) true =
      .ok ⟨([((("a.b").toList), 1), ((("c").toList), 2)] :
          List (PyStr × Nat)).filter (fun kv => decide (kv.1 = ("c").toList)),
        [(("a").toList)]⟩ ∧
    ∃ r, Base.filter (⟨[((("a.b").toList), 1), ((("c").toList), 2)],
        [(("a").toList)]⟩ : Base Nat)
      (fun k _ => decide (k = ("c").toList)) false = .ok r ∧
      r.items = ([((("a.b").toList), 1), ((("c").toList), 2)] :
          List (PyStr × Nat)).filter (fun kv => decide (kv.1 = ("c").toList)) ∧
      ∀ x, x ∈ r.namespaces ↔
        x ∈ ancAll (keysOf (([((("a.b").toList), 1), ((("c").toList), 2)] :
          List (PyStr × Nat)).filter (fun kv => decide (kv.1 = ("c").toList)))) :=
  filter_spec _ _ (by decide)

/-- C3 (amended).  bind is the copy-on-write variant of the in-place
__setitem__: on a valid environment the new environment bind returns is
exactly the receiver state that __setitem__ produces, and a successful
__setitem__ leaves the receiver extended with the new binding (it mutates
the receiver rather than leaving it unchanged). -/
theorem bind_versus_inplace_set {T : Type} (e : Base T) (k : PyStr) (v : T)
    (h : Valid e) :
    Base.bind e k v = Base.set e k v ∧
    (∀ e', Base.set e k v = .ok e' → e'.items = e.items ++ [(k, v)]) := by
  refine ⟨bind_eq_set h k v, ?_⟩
  intro e' he'
  exact (set_ok_state he').1

/-- C3, counterexample to the claim as stated: __setitem__ and
add_namespace mutate the receiver in place; in the state-passing embedding
the receiver state they return differs from the receiver before the call. -/
theorem set_mutates_receiver :
    Base.set (⟨[], []⟩ : Base Nat) (("x").toList) 0 =
      .ok ⟨[((("x").toList), 0)], []⟩ ∧
    Base.add_namespace (⟨[], []⟩ : Base Nat) (("n").toList) false =
      .ok ⟨[], [(("n").toList)]⟩ ∧
    (⟨[((("x").toList), 0)], []⟩ : Base Nat) ≠ ⟨[], []⟩ ∧
    (⟨[], [(("n").toList)]⟩ : Base Nat) ≠ ⟨[], []⟩ := by
  decide

/-- Witness for bind_versus_inplace_set at a concrete environment. -/
theorem bind_versus_inplace_set_witness :
    Base.bind (⟨[((("a").toList), 1)], []⟩ : Base Nat) (("b").toList) 2 =
      Base.set (⟨[((("a").toList), 1)], []⟩ : Base Nat) (("b").toList) 2 :=
  (bind_versus_inplace_set _ _ _ (by decide)).1

/-- C6 (amended).  On a valid environment, binding a well-formed key that is
not yet bound, is not a declared namespace, and none of whose dotted
ancestors is a bound key, succeeds; the new environment returns the bound
value for the key and declares every ancestor namespace of the key.
Binding a key that is already bound or that equals an existing namespace
name fails with Collision. -/
theorem bind_get_roundtrip {T : Type} (e : Base T) (k : PyStr) (v : T)
    (hv : Valid e) (hw : WFkey k) :
    (hasKey e k = false → k ∉ e.namespaces →
      (∀ a ∈ ancestors k, hasKey e a = false) →
      ∃ e', Base.bind e k v = .ok e' ∧ lookupKey e'.items k = some v ∧
        ∀ a ∈ ancestors k, a ∈ e'.namespaces) ∧
    ((hasKey e k = true ∨ k ∈ e.namespaces) →
      Base.bind e k v = .error (.collision k)) := by
  constructor
  · intro h1 h2 h3
    obtain ⟨nss, hok, hm⟩ := @set_ok T e k v hw h1 h2 h3
    refine ⟨⟨e.items ++ [(k, v)], nss⟩, ?_, ?_, ?_⟩
    · rw [bind_eq_set hv k v]
      exact hok
    · show lookupKey (e.items ++ [(k, v)]) k = some v
      rw [lookupKey_append_none _ (lookup_none_of_hasKey_false h1)]
      show (if k = k then some v else none) = some v
      rw [if_pos rfl]
    · intro a ha
      exact (hm a).mpr (Or.inr ha)
  · intro hpres
    rw [bind_eq_set hv k v]
    exact set_err_present hw.2.2.1 hpres

/-- C6, counterexample to the claim as stated: the key a.b is neither bound
nor a declared namespace, yet binding it fails with Collision because its
ancestor a is a bound key. -/
theorem bind_counterexample :
    hasKey (⟨[((("a").toList), 7)], []⟩ : Base Nat) (("a.b").toList) = false ∧
    (("a.b").toList) ∉ (⟨[((("a").toList), 7)], []⟩ : Base Nat).namespaces ∧
    Base.bind (⟨[((("a").toList), 7)], []⟩ : Base Nat) (("a.b").toList) 1 =
      .error (.collision (("a").toList)) := by
  decide

/-- Witness for bind_get_roundtrip at concrete inputs, exercising both the
success and the Collision branch. -/
theorem bind_get_roundtrip_witness :
    (∃ e', Base.bind (⟨[((("a").toList), 1)], [(("z").toList)]⟩ : Base Nat)
        (("b.c").toList) 5 = .ok e' ∧
      lookupKey e'.items (("b.c").toList) = some 5 ∧
      ∀ a ∈ ancestors (("b.c").toList), a ∈ e'.namespaces) ∧
    Base.bind (⟨[((("a").toList), 1)], [(("z").toList)]⟩ : Base Nat)
      (("a").toList) 5 = .error (.collision (("a").toList)) := by
  constructor
  · exact (bind_get_roundtrip (⟨[((("a").toList), 1)], [(("z").toList)]⟩ : Base Nat)
      (("b.c").toList) 5 (by decide) (by decide)).1 (by decide) (by decide)
      (by decide)
  · exact (bind_get_roundtrip (⟨[((("a").toList), 1)], [(("z").toList)]⟩ : Base Nat)
      (("a").toList) 5 (by decide) (by decide)).2 (by decide)

/-- C7 (confirmed).  enter_namespace fails with the NotFound-style KeyError
when the name is not a declared namespace; otherwise it returns an
environment holding exactly the entries whose key extends the namespace
plus separator, with that prefix stripped (inverting key qualification, so
a binding of a.b.k to v is found under k after entering a.b), and whose
namespace set consists of every declared sub-namespace similarly
re-rooted. -/
theorem enter_namespace_spec {T : Type} (e : Base T) (n : PyStr)
    (hv : Valid e) :
    (Base.contains_namespace e n = false →
      Base.enter_namespace e n = .error (.keyError n)) ∧
    (n ∈ e.namespaces → n.getLast? ≠ some '.' →
      ∃ r, Base.enter_namespace e n = .ok r ∧
        r.items = (e.items.filter (fun kv => (n ++ ['.']).isPrefixOf kv.1)).map
          (fun kv => (kv.1.drop (n ++ ['.']).length, kv.2)) ∧
        (∀ k v, lookupKey e.items ((n ++ ['.']) ++ k) = some v →
          lookupKey r.items k = some v) ∧
        (∀ x, x ∈ r.namespaces ↔
          ∃ m ∈ e.namespaces, (n ++ ['.']).isPrefixOf m = true ∧
            x = m.drop (n ++ ['.']).length)) := by
  constructor
  · intro hc
    unfold Base.enter_namespace
    rw [if_pos (by rw [hc]; simp)]
  · intro hn hnl
    have hcontains : Base.contains_namespace e n = true := by
      unfold Base.contains_namespace
      rw [stripDot_eq_self hnl]
      exact decide_eq_true hn
    have hed : ensureDot n = n ++ ['.'] := ensureDot_eq hnl
    have hmemf : ∀ k ∈ keysOf (e.items.filter
        (fun kv => (n ++ ['.']).isPrefixOf kv.1)),
        ((n ++ ['.']).isPrefixOf k = true) ∧ k ∈ keysOf e.items := by
      intro k hk
      unfold keysOf at hk
      obtain ⟨kv, hkv, rfl⟩ := List.mem_map.mp hk
      rw [List.mem_filter] at hkv
      exact ⟨hkv.2, List.mem_map.mpr ⟨kv, hkv.1, rfl⟩⟩
    have hgf : goodList (e.items.filter (fun kv => (n ++ ['.']).isPrefixOf kv.1)) :=
      goodList_sublist (List.filter_sublist _) (valid_goodList hv)
    have hkeys : keysOf ((e.items.filter
        (fun kv => (n ++ ['.']).isPrefixOf kv.1)).map
        (fun kv => (kv.1.drop (n ++ ['.']).length, kv.2))) =
        (keysOf (e.items.filter (fun kv => (n ++ ['.']).isPrefixOf kv.1))).map
          (fun k => k.drop (n ++ ['.']).length) := by
      unfold keysOf
      rw [List.map_map, List.map_map]
      rfl
    -- each filtered key decomposes as the namespace-dot prefix plus its WF tail
    have hdecomp : ∀ k ∈ keysOf (e.items.filter
        (fun kv => (n ++ ['.']).isPrefixOf kv.1)),
        n ++ '.' :: (k.drop (n ++ ['.']).length) = k ∧
          WFkey (k.drop (n ++ ['.']).length) := by
      intro k hk
      obtain ⟨hp, hke⟩ := hmemf k hk
      have hdec : (n ++ ['.']) ++ k.drop (n ++ ['.']).length = k := pref_decomp hp
      rw [append_dot_cons] at hdec
      refine ⟨hdec, ?_⟩
      have hwk : WFkey k := hv.2.1 k hke
      rw [← hdec] at hwk
      exact WFkey_suffix hwk
    have hgood : goodList ((e.items.filter
        (fun kv => (n ++ ['.']).isPrefixOf kv.1)).map
        (fun kv => (kv.1.drop (n ++ ['.']).length, kv.2))) := by
      obtain ⟨hnd, hwf, hpw⟩ := hgf
      refine ⟨?_, ?_, ?_⟩
      · rw [hkeys]
        apply List.Nodup.map_on ?_ hnd
        intro x hx y hy hxy
        obtain ⟨hdx, _⟩ := hdecomp x hx
        obtain ⟨hdy, _⟩ := hdecomp y hy
        rw [← hdx, ← hdy, hxy]
      · intro k hk
        rw [hkeys] at hk
        obtain ⟨k0, hk0, rfl⟩ := List.mem_map.mp hk
        exact (hdecomp k0 hk0).2
      · intro s1 h1 s2 h2 hanc
        rw [hkeys] at h1 h2
        obtain ⟨k1, hk1, rfl⟩ := List.mem_map.mp h1
        obtain ⟨k2, hk2, rfl⟩ := List.mem_map.mp h2
        obtain ⟨hd1, _⟩ := hdecomp k1 hk1
        obtain ⟨hd2, _⟩ := hdecomp k2 hk2
        have hk1e : k1 ∈ keysOf e.items := (hmemf k1 hk1).2
        have hk2e : k2 ∈ keysOf e.items := (hmemf k2 hk2).2
        -- k1 becomes an ancestor of k2, contradicting validity
        have hmm : k1 ∈ ancestors k2 := by
          rw [← hd2, ancestors_split]
          apply List.mem_append.mpr
          left
          apply List.mem_map.mpr
          exact ⟨k1.drop (n ++ ['.']).length, hanc, hd1⟩
        exact hv.2.2.1 k1 hk1e (hv.2.2.2 k2 hk2e k1 hmm)
    obtain ⟨nss, hset, hm⟩ := setAll_ok ((e.items.filter
        (fun kv => (n ++ ['.']).isPrefixOf kv.1)).map
        (fun kv => (kv.1.drop (n ++ ['.']).length, kv.2))) ⟨[], []⟩ hgood
      (fun k _ => ⟨rfl, by simp, fun a _ => rfl⟩)
    have hset' : setAll ⟨[], []⟩ ((e.items.filter
        (fun kv => (ensureDot n).isPrefixOf kv.1)).map
        (fun kv => (kv.1.drop (ensureDot n).length, kv.2))) =
        .ok ⟨[] ++ (e.items.filter
          (fun kv => (n ++ ['.']).isPrefixOf kv.1)).map
          (fun kv => (kv.1.drop (n ++ ['.']).length, kv.2)), nss⟩ := by
      rw [hed]
      exact hset
    have henter := enter_step hcontains hset'
    rw [hed] at henter
    refine ⟨_, henter, rfl, ?_, ?_⟩
    · intro k v hkv
      exact lookup_strip (n ++ ['.']) e.items k v hkv
    · intro x
      have hfold := foldl_reroot_mem (ensureDot n) e.namespaces nss x
      rw [hed] at hfold
      constructor
      · intro hx
        have hx' : x ∈ List.foldl (fun acc m =>
            if (n ++ ['.']).isPrefixOf m then
              nsAdd acc (m.drop (n ++ ['.']).length) else acc) nss e.namespaces := hx
        rcases hfold.mp hx' with hx1 | hx2
        · rcases (hm x).mp hx1 with hc | hc
          · simp at hc
          · obtain ⟨s, hs, hxa⟩ := ancAll_mem.mp hc
            rw [hkeys] at hs
            obtain ⟨k, hk, rfl⟩ := List.mem_map.mp hs
            obtain ⟨hkeq, _⟩ := hdecomp k hk
            have hke : k ∈ keysOf e.items := (hmemf k hk).2
            refine ⟨(n ++ ['.']) ++ x, ?_, ?_, ?_⟩
            · have hmm : (n ++ '.' :: x) ∈ ancestors k := by
                rw [← hkeq, ancestors_split]
                apply List.mem_append.mpr
                left
                exact List.mem_map.mpr ⟨x, hxa, rfl⟩
              have := hv.2.2.2 k hke (n ++ '.' :: x) hmm
              rw [append_dot_cons]
              exact this
            · exact (isPrefixOf_exists (n ++ ['.']) ((n ++ ['.']) ++ x)).mpr ⟨x, rfl⟩
            · rw [List.drop_left]
        · exact hx2
      · rintro ⟨m, hme, hp, hx⟩
        show x ∈ List.foldl (fun acc m =>
            if (n ++ ['.']).isPrefixOf m then
              nsAdd acc (m.drop (n ++ ['.']).length) else acc) nss e.namespaces
        exact hfold.mpr (Or.inr ⟨m, hme, hp, hx⟩)

/-- Witness for enter_namespace_spec at a concrete environment, exercising
both the KeyError branch and the successful re-rooting branch. -/
theorem enter_namespace_spec_witness :
    Base.enter_namespace (⟨[((("a.b.k").toList), 5)],
        [(("a").toList), (("a.b").toList), (("a.b.c").toList)]⟩ : Base Nat)
      (("q").toList) = .error (.keyError (("q").toList)) ∧
    ∃ r, Base.enter_namespace (⟨[((("a.b.k").toList), 5)],
        [(("a").toList), (("a.b").toList), (("a.b.c").toList)]⟩ : Base Nat)
      (("a.b").toList) = .ok r ∧
      r.items = (([((("a.b.k").toList), 5)] : List (PyStr × Nat)).filter
          (fun kv => ((("a.b").toList) ++ ['.']).isPrefixOf kv.1)).map
        (fun kv => (kv.1.drop ((("a.b").toList) ++ ['.']).length, kv.2)) ∧
      (∀ k v, lookupKey ([((("a.b.k").toList), 5)] : List (PyStr × Nat))
          (((("a.b").toList) ++ ['.']) ++ k) = some v →
        lookupKey r.items k = some v) ∧
      (∀ x, x ∈ r.namespaces ↔
        ∃ m ∈ [(("a").toList), (("a.b").toList), (("a.b.c").toList)],
          ((("a.b").toList) ++ ['.']).isPrefixOf m = true ∧
            x = m.drop ((("a.b").toList) ++ ['.']).length) := by
  constructor
  · exact (enter_namespace_spec (⟨[((("a.b.k").toList), 5)],
      [(("a").toList), (("a.b").toList), (("a.b.c").toList)]⟩ : Base Nat)
      (("q").toList) (by decide)).1 (by decide)
  · exact (enter_namespace_spec (⟨[((("a.b.k").toList), 5)],
      [(("a").toList), (("a.b").toList), (("a.b.c").toList)]⟩ : Base Nat)
      (("a.b").toList) (by decide)).2 (by decide) (by decide)

/-! Claim-level theorems for the expression pipeline. -/

/-- C4 (amended).  The Int-to-Float typecheck special case belongs to Int
literal nodes (and the empty-array case to empty ArrayLiteral nodes): an Int
literal typechecks against an expected Float, an empty ArrayLiteral
typechecks against any expected array type, and every other node (including
non-literal expressions whose inferred type is Int, such as identifiers)
typechecks successfully exactly when its inferred type equals the expected
type, failing otherwise with StaticTypeMismatch carrying the expression, the
expected type and the actual type. -/
theorem typecheck_spec :
    (∀ (n : Int) (ty : WTy), typecheck (.int n) ty .float = .ok ()) ∧
    (∀ (ty : WTy) (it : Option WTy),
      typecheck (.array .nil) ty (.array it) = .ok ()) ∧
    (∀ (e : Expr) (ty expected : WTy),
      (∀ n : Int, e = .int n → expected ≠ .float) →
      (e = .array .nil → ∀ it, expected ≠ .array it) →
      ((typecheck e ty expected = .ok () ↔ ty = expected) ∧
       (ty ≠ expected →
         typecheck e ty expected =
           .error (.staticTypeMismatch e expected ty none)))) := by
  refine ⟨fun n ty => rfl, fun ty it => rfl, ?_⟩
  intro e ty expected hint harr
  have hbase : typecheck e ty expected = typecheckBase e ty expected := by
    cases e with
    | int n =>
      have hne := hint n rfl
      show (if expected = WTy.float then Except.ok () else typecheckBase _ ty expected) = _
      rw [if_neg hne]
    | array items =>
      cases items with
      | nil =>
        have hne := harr rfl
        cases expected with
        | array it => exact absurd rfl (hne it)
        | boolean => rfl
        | int => rfl
        | float => rfl
        | string => rfl
      | cons h t => rfl
    | boolean b => rfl
    | float q => rfl
    | string p => rfl
    | placeholder o e0 => rfl
    | ifThenElse c t f => rfl
    | ident name => rfl
  rw [hbase]
  unfold typecheckBase
  constructor
  · constructor
    · intro hok
      by_contra hne
      rw [if_neg hne] at hok
      exact absurd hok (by simp)
    · intro heq
      rw [if_pos heq]
  · intro hne
    rw [if_neg hne]

/-- C4, counterexample to the claim as stated: an identifier whose inferred
type is Int does not typecheck against an expected Float; the Int-to-Float
widening of typecheck applies only to Int literal nodes. -/
theorem typecheck_counterexample :
    inferType [(some ((("x").toList), WTy.int))] (.ident (("x").toList)) =
      .ok .int ∧
    typecheck (.ident (("x").toList)) .int .float =
      .error (.staticTypeMismatch (.ident (("x").toList)) .float .int none) :=
  ⟨rfl, rfl⟩

/-- Witness for typecheck_spec at a concrete non-literal node. -/
theorem typecheck_spec_witness :
    typecheck (.ident (("x").toList)) .int .float =
      .error (.staticTypeMismatch (.ident (("x").toList)) .float .int none) :=
  ((typecheck_spec.2.2 (.ident (("x").toList)) .int .float
    (fun n h => Expr.noConfusion h)
    (fun h => Expr.noConfusion h)).2 (by decide))

/-- C9 (confirmed).  Evaluating a typed Conditional evaluates the
condition, treats any Boolean value other than false as true, and evaluates
only the selected branch: with a true condition the result is the
consequent's value even when evaluating the alternative would fail. -/
theorem conditional_lazy_eval :
    (∀ tenv env (c t f : Expr) (b : Bool),
      evalExpr tenv env c = .ok (.boolean b) →
      evalExpr tenv env (.ifThenElse c t f) =
        (if b then evalExpr tenv env t else evalExpr tenv env f)) ∧
    (evalExpr [] [] (.ifThenElse (.boolean true) (.int 1)
        (.ident (("nope").toList))) = .ok (.int 1) ∧
     evalExpr [] [] (.ident (("nope").toList)) =
       .error (.unknownIdentifier (("nope").toList))) := by
  constructor
  · intro tenv env c t f b hc
    have hstep : evalExpr tenv env (.ifThenElse c t f) =
        (match evalExpr tenv env c with
         | .error err => .error err
         | .ok v =>
           match expect v .boolean with
           | .error err => .error err
           | .ok vb =>
             if boolVal vb ≠ false then evalExpr tenv env t
             else evalExpr tenv env f) := rfl
    rw [hstep, hc]
    show (if boolVal (.boolean b) ≠ false then evalExpr tenv env t
      else evalExpr tenv env f) = _
    cases b
    · simp [boolVal]
    · simp [boolVal]
  · exact ⟨rfl, rfl⟩

/-- Witness for conditional_lazy_eval: a true condition selects the
consequent even though the alternative is an unbound identifier. -/
theorem conditional_lazy_eval_witness :
    evalExpr [] [] (.ifThenElse (.boolean true) (.int 1)
      (.ident (("nope").toList))) =
      (if true then evalExpr [] [] (.int 1)
       else evalExpr [] [] (.ident (("nope").toList))) :=
  conditional_lazy_eval.1 [] [] (.boolean true) (.int 1)
    (.ident (("nope").toList)) true rfl

/-- C10 (confirmed).  String.eval concatenates the escape-decoded literal
segments with the stringified placeholder payloads, then removes exactly the
first and the last character of the concatenation; the trim is total,
returning the empty string on concatenations shorter than two characters
(in particular on an empty parts list). -/
theorem string_eval_trim_spec :
    (∀ tenv env (parts : StrParts) (vs : List WVal) (ss : List PyStr),
      evalParts tenv env parts = .ok vs → allStrings vs = some ss →
      evalExpr tenv env (.string parts) = .ok (.string (pyTrim ss.flatten))) ∧
    (∀ (a b : Char) (s : PyStr), pyTrim ([a] ++ s ++ [b]) = s) ∧
    (∀ s : PyStr, s.length ≤ 1 → pyTrim s = []) ∧
    evalExpr [] [] (.string .nil) = .ok (.string []) := by
  refine ⟨?_, ?_, ?_, rfl⟩
  · intro tenv env parts vs ss h1 h2
    have hstep : evalExpr tenv env (.string parts) =
        (match evalParts tenv env parts with
         | .error err => .error err
         | .ok vs =>
           match allStrings vs with
           | some ss => .ok (.string (pyTrim ss.flatten))
           | none => .error .typeError) := rfl
    rw [hstep, h1]
    show (match allStrings vs with
      | some ss => Except.ok (WVal.string (pyTrim ss.flatten))
      | none => Except.error RErr.typeError) = _
    rw [h2]
  · intro a b s
    unfold pyTrim
    have h : [a] ++ s ++ [b] = a :: (s ++ [b]) := by simp
    rw [h]
    show (s ++ [b]).dropLast = s
    exact List.dropLast_concat
  · intro s hs
    cases s with
    | nil => rfl
    | cons a tail =>
      cases tail with
      | nil => rfl
      | cons c tl => simp at hs

/-- Witness for string_eval_trim_spec: one quoted literal segment loses its
surrounding quotes. -/
theorem string_eval_trim_spec_witness :
    evalExpr [] [] (.string (.consLit (("\"ab\"").toList) .nil)) =
      .ok (.string (pyTrim ([(("\"ab\"").toList)].flatten))) :=
  string_eval_trim_spec.1 [] [] (.consLit (("\"ab\"").toList) .nil)
    [.string (("\"ab\"").toList)] [(("\"ab\"").toList)] rfl rfl

/-- C5 (code bug).  get_digest_for_inputs hashes
json.dumps(sorted(values_to_json(inputs))): Python sorted() over the dict
yields only the sorted key names, so the hashed material, and hence the
digest, depends only on the bound names and not on the bound values; two
input environments binding the same name to different values receive the
same digest. -/
theorem digest_ignores_values :
    (∀ (inputs1 inputs2 : List (PyStr × WVal)),
      keysOf inputs1 = keysOf inputs2 →
      ∀ sha256hex, get_digest_for_inputs sha256hex inputs1 =
        get_digest_for_inputs sha256hex inputs2) ∧
    (∀ sha256hex,
      get_digest_for_inputs sha256hex [((("x").toList), .int 1)] =
        get_digest_for_inputs sha256hex [((("x").toList), .int 2)]) ∧
    WVal.int 1 ≠ WVal.int 2 := by
  have hmat : ∀ (inputs1 inputs2 : List (PyStr × WVal)),
      keysOf inputs1 = keysOf inputs2 →
      get_digest_material inputs1 = get_digest_material inputs2 := by
    intro i1 i2 hk
    unfold get_digest_material
    have hkeq : keysOf (values_to_json i1) = keysOf (values_to_json i2) := by
      unfold keysOf values_to_json
      rw [List.map_map, List.map_map]
      exact hk
    rw [hkeq]
  refine ⟨?_, ?_, ?_⟩
  · intro i1 i2 hk sha
    unfold get_digest_for_inputs
    rw [hmat i1 i2 hk]
  · intro sha
    unfold get_digest_for_inputs
    exact congrArg sha (hmat _ _ rfl)
  · intro h
    injection h with h
    exact absurd h (by decide)

/-- Witness for digest_ignores_values at concrete environments with equal
names and different values, and a concrete stand-in hash function. -/
theorem digest_ignores_values_witness :
    get_digest_for_inputs (fun s => s)
      [((("a").toList), .string (("u").toList)), ((("b").toList), .int 3)] =
      get_digest_for_inputs (fun s => s)
      [((("a").toList), .int 9), ((("b").toList), .boolean true)] :=
  digest_ignores_values.1 _ _ rfl (fun s => s)

theorem firstBad_none_iff {ps : List (Expr × WTy)} {target : WTy} :
    firstBad ps target = none ↔
      ∀ p ∈ ps, typecheck p.1 p.2 target = .ok () := by
  induction ps with
  | nil => simp [firstBad]
  | cons p rest ih =>
    have hstep : firstBad (p :: rest) target =
        (match typecheck p.1 p.2 target with
         | .ok _ => firstBad rest target
         | .error _ => some p.2) := rfl
    rw [hstep]
    cases h : typecheck p.1 p.2 target with
    | ok u =>
      cases u
      constructor
      · intro hn q hq
        rcases List.mem_cons.mp hq with rfl | hq
        · exact h
        · exact ih.mp hn q hq
      · intro hall
        exact ih.mpr (fun q hq => hall q (List.mem_cons.mpr (Or.inr hq)))
    | error err =>
      constructor
      · intro hc
        exact absurd hc (by simp)
      · intro hall
        have := hall p (List.mem_cons_self _ _)
        rw [h] at this
        exact absurd this (by simp)

theorem firstBad_some_of_bad {ps : List (Expr × WTy)} {target : WTy}
    (h : ∃ p ∈ ps, ¬ typecheck p.1 p.2 target = .ok ()) :
    ∃ bad, firstBad ps target = some bad := by
  cases hf : firstBad ps target with
  | some bad => exact ⟨bad, rfl⟩
  | none =>
    obtain ⟨p, hp, hbad⟩ := h
    exact absurd (firstBad_none_iff.mp hf p hp) hbad

/-- C8 (confirmed).  An empty ArrayLiteral infers an array type with
unknown item type.  A non-empty one infers every item, takes the first
item's type, widens it to Float when that type is Int and some item's type
is Float, and re-checks every item against the chosen item type: if all
re-checks succeed the node infers an array of the chosen item type, and
otherwise it fails with a StaticTypeMismatch whose message is inconsistent
types within array.  In particular the literal [1, 2.0] infers Array(Float)
and evaluates, with the Int item coerced, to the Float array [1.0, 2.0]. -/
theorem array_literal_spec :
    (∀ tenv, inferType tenv (.array .nil) = .ok (.array none)) ∧
    (∀ tenv (e0 : Expr) (rest : ExprList) (t0 : WTy) (ts : List WTy)
        (item_type : WTy),
      inferList tenv (.cons e0 rest) = .ok (t0 :: ts) →
      item_type =
        (if t0 = WTy.int ∧ WTy.float ∈ t0 :: ts then WTy.float else t0) →
      (((∀ p ∈ zipET (.cons e0 rest) (t0 :: ts),
          typecheck p.1 p.2 item_type = .ok ()) →
        inferType tenv (.array (.cons e0 rest)) =
          .ok (.array (some item_type))) ∧
       ((∃ p ∈ zipET (.cons e0 rest) (t0 :: ts),
          ¬ typecheck p.1 p.2 item_type = .ok ()) →
        ∃ bad, inferType tenv (.array (.cons e0 rest)) =
          .error (.staticTypeMismatch (.array (.cons e0 rest)) item_type bad
            (some (("inconsistent types within array").toList)))))) ∧
    (inferType [] (.array (.cons (.int 1) (.cons (.float 2) .nil))) =
      .ok (.array (some .float)) ∧
     evalExpr [] [] (.array (.cons (.int 1) (.cons (.float 2) .nil))) =
      .ok (.array (.array (some .float)) [.float 1, .float 2])) := by
  refine ⟨fun tenv => rfl, ?_, rfl, rfl⟩
  intro tenv e0 rest t0 ts item_type hinf hit
  subst hit
  have h0 : inferType tenv (.array (.cons e0 rest)) =
      (match inferList tenv (.cons e0 rest) with
       | .error err => .error err
       | .ok ts2 =>
         match firstBad (zipET (.cons e0 rest) ts2)
             (if ts2.headD .boolean = WTy.int ∧ WTy.float ∈ ts2 then WTy.float
              else ts2.headD .boolean) with
         | some bad =>
           .error (.staticTypeMismatch (.array (.cons e0 rest))
             (if ts2.headD .boolean = WTy.int ∧ WTy.float ∈ ts2 then WTy.float
              else ts2.headD .boolean) bad
             (some (("inconsistent types within array").toList)))
         | none =>
           .ok (.array (some (if ts2.headD .boolean = WTy.int ∧
               WTy.float ∈ ts2 then WTy.float else ts2.headD .boolean)))) := rfl
  have h1 : inferType tenv (.array (.cons e0 rest)) =
      (match firstBad (zipET (.cons e0 rest) (t0 :: ts))
          (if t0 = WTy.int ∧ WTy.float ∈ t0 :: ts then WTy.float else t0) with
       | some bad =>
         .error (.staticTypeMismatch (.array (.cons e0 rest))
           (if t0 = WTy.int ∧ WTy.float ∈ t0 :: ts then WTy.float else t0) bad
           (some (("inconsistent types within array").toList)))
       | none =>
         .ok (.array (some (if t0 = WTy.int ∧ WTy.float ∈ t0 :: ts then
           WTy.float else t0)))) := by
    rw [h0, hinf]
    rfl
  constructor
  · intro hall
    rw [h1, firstBad_none_iff.mpr hall]
  · intro hex
    obtain ⟨bad, hb⟩ := firstBad_some_of_bad hex
    exact ⟨bad, by rw [h1, hb]⟩

/-- Witness for array_literal_spec at the mixed Int and Float literal
array. -/
theorem array_literal_spec_witness :
    inferType [] (.array (.cons (.int 1) (.cons (.float 2) .nil))) =
      .ok (.array (some .float)) := by
  have h := (array_literal_spec.2.1 [] (.int 1) (.cons (.float 2) .nil)
    .int [.float] .float rfl (by decide)).1
  apply h
  intro p hp
  rcases List.mem_cons.mp hp with rfl | hp2
  · rfl
  · rcases List.mem_cons.mp hp2 with rfl | hp3
    · rfl
    · exact absurd hp3 (List.not_mem_nil p)
